import Mathlib

/-!
Verification of the voxel engine core in `src/src/engine.ts` (the `Column`,
`Circle`, `Chunk`, `LODMultiMesh`, `FrontierChunk` and `World` classes).

The TypeScript source is shallowly embedded:

* machine integers are `Nat`/`Int` (all quantities involved stay far below
  any overflow bound except the 32-bit visibility mask words, which are kept
  below `2^32` explicitly);
* typed arrays (`Int16Array`, `Tensor2`, `Tensor3`) are total functions;
  JavaScript guarantees typed arrays are zero-initialized, so the
  corresponding functions start as constant zero;
* in-place mutation becomes explicit state passing;
* `x >> 4` on a JS 32-bit integer is `Int.fdiv x 16`, `x & 15` is
  `Int.emod x 16` (both exact for the two's-complement semantics of the
  source), `x & mask` with `mask = 2^shift - 1` is `Int.emod x (2^shift)`;
* the radius of a `Circle` is always of the form `k + 0.5` or an integer in
  the code paths the claims touch; it is represented exactly by
  `radius2x : Nat`, twice the radius, and the float comparison
  `distance > radius*radius` becomes `4*distance > radius2x^2`.
-/

namespace Voxels

/-- Constants from engine.ts. -/
def kChunkBits : Nat := 4

def kChunkWidth : Nat := 16

def kChunkMask : Nat := 15

def kWorldHeight : Nat := 256

def kChunkRadius : Nat := 12

def kNumChunksToLoadPerFrame : Nat := 1

def kNumChunksToMeshPerFrame : Nat := 1

def kEmptyBlock : Nat := 0

def kUnknownBlock : Nat := 1

/-! ## Column

`Column` is a vertical run-length list plus point decorations and the
incremental per-height mismatch counters used for equi-level detection.
`data` is the list of `(block, topLevel)` runs (the `Int16Array` pairs),
`mismatches` is the `Int16Array` of signed deltas, `reference_data` the
stored reference column. -/

structure Column where
  decorations : List (Nat × Nat) := []
  data : List (Nat × Nat) := []
  last : Nat := 0
  mismatches : Nat → Int := fun _ => 0
  reference_data : List (Nat × Nat) := []

/-- A fresh `Column` (constructor: empty lists, zeroed arrays). -/
def colInit : Column := {}

/-- Column.push from engine.ts: clamp the height to `kWorldHeight`, ignore
the push unless it exceeds the current top, else append a run. -/
def Column.push (c : Column) (block height : Nat) : Column :=
  let h := min height kWorldHeight
  if h ≤ c.last then c
  else { c with last := h, data := c.data ++ [(block, h)] }

/-- Column.overwrite from engine.ts: record a point decoration, ignored when
`y` is out of world bounds (`y : Nat` is already nonnegative). -/
def Column.overwrite (c : Column) (block y : Nat) : Column :=
  if y < kWorldHeight then { c with decorations := c.decorations ++ [(block, y)] }
  else c

/-- Column.clear from engine.ts: drops runs and decorations; the mismatch
counters and the reference column persist across columns of one chunk. -/
def Column.clear (c : Column) : Column :=
  { c with decorations := [], data := [], last := 0 }

/-- One call the terrain-generation callback makes on the column. -/
inductive ColOp where
  | push (block : Nat) (height : Nat)
  | overwrite (block : Nat) (y : Nat)

def Column.applyOp (c : Column) : ColOp → Column
  | .push b h => c.push b h
  | .overwrite b y => c.overwrite b y

/-- The effect of a terrain callback, as the sequence of calls it makes. -/
def Column.applyOps (c : Column) (ops : List ColOp) : Column :=
  ops.foldl Column.applyOp c

/-- The topLevel of the last run (0 for an empty run list). -/
def lastTop (l : List (Nat × Nat)) : Nat :=
  match l.getLast? with
  | none => 0
  | some r => r.2

/-- Well-formedness of a column reachable by `push`/`overwrite` from a
cleared state: run tops are strictly increasing, positive, bounded by
`kWorldHeight`, `last` is the final top, and decorations are in bounds. -/
structure ColWF (c : Column) : Prop where
  chain : List.Chain' (fun a b : Nat × Nat => a.2 < b.2) c.data
  le_h : ∀ r ∈ c.data, r.2 ≤ kWorldHeight
  pos : ∀ r ∈ c.data, 0 < r.2
  last_eq : c.last = lastTop c.data
  decos : ∀ d ∈ c.decorations, d.2 < kWorldHeight

theorem lastTop_append_one (l : List (Nat × Nat)) (r : Nat × Nat) :
    lastTop (l ++ [r]) = r.2 := by
  simp [lastTop]

theorem lastTop_cons_cons (a b : Nat × Nat) (t : List (Nat × Nat)) :
    lastTop (a :: b :: t) = lastTop (b :: t) := by
  simp [lastTop]

theorem mem_le_lastTop {l : List (Nat × Nat)}
    (hch : List.Chain' (fun a b : Nat × Nat => a.2 < b.2) l) :
    ∀ r ∈ l, r.2 ≤ lastTop l := by
  induction l with
  | nil => simp
  | cons a t ih =>
    intro r hr
    rcases List.mem_cons.mp hr with heq | hmem
    · subst heq
      cases t with
      | nil => simp [lastTop]
      | cons b t2 =>
        have hab : r.2 < b.2 := (List.chain'_cons.mp hch).1
        have hb : b.2 ≤ lastTop (b :: t2) :=
          ih (List.chain'_cons.mp hch).2 b (by simp)
        rw [lastTop_cons_cons]
        omega
    · have ht : List.Chain' (fun a b : Nat × Nat => a.2 < b.2) t :=
        List.Chain'.tail hch
      have hr2 := ih ht r hmem
      cases t with
      | nil => cases hmem
      | cons b t2 =>
        rw [lastTop_cons_cons]
        exact hr2

theorem colWF_push {c : Column} (h : ColWF c) (b hgt : Nat) :
    ColWF (c.push b hgt) := by
  unfold Column.push
  by_cases hle : min hgt kWorldHeight ≤ c.last
  · simpa [hle] using h
  · simp only [hle, if_false]
    push_neg at hle
    refine ⟨?_, ?_, ?_, ?_, ?_⟩
    · rw [List.chain'_append]
      refine ⟨h.chain, List.chain'_singleton _, ?_⟩
      intro x hx y hy
      simp only [List.head?_cons, Option.mem_def, Option.some.injEq] at hy
      subst hy
      have hx' : x ∈ c.data := List.mem_of_mem_getLast? hx
      have h1 : x.2 ≤ lastTop c.data := mem_le_lastTop h.chain x hx'
      have h2 : lastTop c.data = c.last := (h.last_eq).symm
      simp only []
      omega
    · intro r hr
      rcases List.mem_append.mp hr with h1 | h1
      · exact h.le_h r h1
      · simp only [List.mem_singleton] at h1
        subst h1
        simp [min_le_right]
    · intro r hr
      rcases List.mem_append.mp hr with h1 | h1
      · exact h.pos r h1
      · simp only [List.mem_singleton] at h1
        subst h1
        simp only []
        omega
    · simp [lastTop_append_one]
    · exact h.decos

theorem colWF_overwrite {c : Column} (h : ColWF c) (b y : Nat) :
    ColWF (c.overwrite b y) := by
  unfold Column.overwrite
  by_cases hy : y < kWorldHeight
  · simp only [hy, if_true]
    refine ⟨h.chain, h.le_h, h.pos, h.last_eq, ?_⟩
    intro d hd
    rcases List.mem_append.mp hd with h1 | h1
    · exact h.decos d h1
    · simp only [List.mem_singleton] at h1
      subst h1
      exact hy
  · simpa [hy] using h

theorem colWF_applyOp {c : Column} (h : ColWF c) (op : ColOp) :
    ColWF (c.applyOp op) := by
  cases op with
  | push b hg => exact colWF_push h b hg
  | overwrite b y => exact colWF_overwrite h b y

theorem colWF_applyOps {c : Column} (h : ColWF c) (ops : List ColOp) :
    ColWF (c.applyOps ops) := by
  induction ops generalizing c with
  | nil => exact h
  | cons op t ih => exact ih (colWF_applyOp h op)

theorem colWF_clear (c : Column) : ColWF c.clear := by
  refine ⟨?_, ?_, ?_, ?_, ?_⟩ <;> simp [Column.clear, lastTop]

theorem colWF_init : ColWF colInit := by
  refine ⟨?_, ?_, ?_, ?_, ?_⟩ <;> simp [colInit, lastTop]

/-- The `last` field never exceeds `kWorldHeight` on well-formed columns. -/
theorem colWF_last_le {c : Column} (h : ColWF c) : c.last ≤ kWorldHeight := by
  rw [h.last_eq]
  cases hlast : c.data.getLast? with
  | none => simp [lastTop, hlast]
  | some r =>
    have hmem : r ∈ c.data := List.mem_of_mem_getLast? hlast
    simp only [lastTop, hlast]
    exact h.le_h r hmem

/-- Push-only state characterization used by claim C7: pushing with an
effective height not above `last` is the identity, otherwise it appends. -/
theorem push_ignored {c : Column} (b hgt : Nat)
    (h : min hgt kWorldHeight ≤ c.last) : c.push b hgt = c := by
  simp [Column.push, h]

theorem push_appends {c : Column} (b hgt : Nat)
    (h : c.last < min hgt kWorldHeight) :
    (c.push b hgt).data = c.data ++ [(b, min hgt kWorldHeight)] ∧
      (c.push b hgt).last = min hgt kWorldHeight := by
  have h' : ¬ min hgt kWorldHeight ≤ c.last := by omega
  constructor <;> simp [Column.push, h']

/-- The state after a sequence of pushes on a cleared column. -/
def pushList (c0 : Column) (ps : List (Nat × Nat)) : Column :=
  ps.foldl (fun c p => c.push p.1 p.2) c0.clear

theorem foldl_push_wf {c : Column} (hc : ColWF c) (ps : List (Nat × Nat)) :
    ColWF (ps.foldl (fun c p => c.push p.1 p.2) c) := by
  induction ps generalizing c with
  | nil => exact hc
  | cons p t ih => exact ih (colWF_push hc p.1 p.2)

theorem pushList_wf (c0 : Column) (ps : List (Nat × Nat)) :
    ColWF (pushList c0 ps) :=
  foldl_push_wf (colWF_clear c0) ps

/-! ## Equi-level detection (Column.detectEquiLevelChanges and friends) -/

/-- Running integral of the mismatch deltas: `current` after adding
`mismatches[0..y]` in `Column.fillEquilevels`. -/
def integral (m : Nat → Int) : Nat → Int
  | 0 => m 0
  | y + 1 => integral m y + m (y + 1)

/-- `mismatches[i] += v` on the counter array. -/
def bump (m : Nat → Int) (i : Nat) (v : Int) : Nat → Int :=
  Function.update m i (m i + v)

/-- The decoration pass of `detectEquiLevelChanges`: each decoration at
`level` adds `+1` at `level` and `-1` at `level+1` when in bounds. -/
def applyDecos (decos : List (Nat × Nat)) (m : Nat → Int) : Nat → Int :=
  decos.foldl
    (fun m d =>
      let m1 := bump m d.2 1
      if d.2 + 1 < kWorldHeight then bump m1 (d.2 + 1) (-1) else m1)
    m

/-- The run list after `detectEquiLevelChanges` appends the sentinel
`(kEmptyBlock, kWorldHeight)` run when the column top is below the world
height. -/
def extendData (c : Column) : List (Nat × Nat) :=
  if c.last < kWorldHeight then c.data ++ [(kEmptyBlock, kWorldHeight)]
  else c.data

/-- The body of one scan iteration on the counters: toggle a delta at the
start of the current segment when agreement between the two current runs
flips. -/
def scanStep (m : Nat → Int) (matched : Bool) (db rb dstart rstart : Nat) :
    Nat → Int :=
  if matched == (db == rb) then m
  else bump m (max dstart rstart) (if matched then 1 else -1)

/-- The two-pointer merge scan of `detectEquiLevelChanges`, comparing this
column's (extended) runs against the reference column's runs.  The source's
while loop consumes at least one run per iteration; it is written here with
explicit fuel (`ds.length + rs.length` suffices) so that the definition is
structurally recursive and kernel-evaluable. -/
def scanF (m : Nat → Int) :
    Nat → List (Nat × Nat) → List (Nat × Nat) → Nat → Nat → Bool → Nat → Int
  | 0, _, _, _, _, _ => m
  | _ + 1, [], _, _, _, _ => m
  | _ + 1, _ :: _, [], _, _, _ => m
  | fuel + 1, (db, dl) :: dtl, (rb, rl) :: rtl, dstart, rstart, matched =>
    if dl ≤ rl then
      if rl ≤ dl then
        scanF (scanStep m matched db rb dstart rstart) fuel dtl rtl dl rl (db == rb)
      else
        scanF (scanStep m matched db rb dstart rstart) fuel dtl ((rb, rl) :: rtl)
          dl rstart (db == rb)
    else
      scanF (scanStep m matched db rb dstart rstart) fuel ((db, dl) :: dtl) rtl
        dstart rl (db == rb)

def scanRuns (ds rs : List (Nat × Nat)) (m : Nat → Int) : Nat → Int :=
  scanF m (ds.length + rs.length) ds rs 0 0 true

/-- Column.detectEquiLevelChanges from engine.ts: extend the run list with
the sentinel, zero the counters on the first column, apply the decoration
deltas, then either store this column as the reference (first column) or
merge-scan it against the reference. -/
def Column.detectEquiLevelChanges (c : Column) (first : Bool) : Column :=
  let data' := extendData c
  let m0 := if first then (fun _ => (0 : Int)) else c.mismatches
  let m1 := applyDecos c.decorations m0
  if first then
    { c with data := data', mismatches := m1, reference_data := data' }
  else
    { c with data := data', mismatches := scanRuns data' c.reference_data m1 }

/-- Column.fillEquilevels from engine.ts: height `y` is an equi-level iff
the integrated mismatch count up to `y` is zero. -/
def fillEquilevelsFn (m : Nat → Int) (y : Nat) : Nat :=
  if integral m y = 0 then 1 else 0

/-- The block a run list stores at height `y`: the block of the first run
whose topLevel exceeds `y` (and `kEmptyBlock` above all runs, matching the
zero-initialized voxel array). -/
def runVal : List (Nat × Nat) → Nat → Nat
  | [], _ => kEmptyBlock
  | (b, t) :: rest, y => if y < t then b else runVal rest y

/-- C7: after any sequence of `push` calls on a cleared column, the run tops
are strictly increasing with the last top at most `kWorldHeight`; a further
push appends a run up to `min(topLevel, kWorldHeight)` when that exceeds the
current top, is ignored when `topLevel` does not exceed the current top, and
is a no-op once the top has reached `kWorldHeight`. -/
theorem column_push_invariants (c0 : Column) (ps : List (Nat × Nat)) :
    List.Chain' (fun a b : Nat × Nat => a.2 < b.2) (pushList c0 ps).data ∧
    lastTop (pushList c0 ps).data ≤ kWorldHeight ∧
    (∀ b hgt, hgt ≤ (pushList c0 ps).last →
      (pushList c0 ps).push b hgt = pushList c0 ps) ∧
    (∀ b hgt, (pushList c0 ps).last < min hgt kWorldHeight →
      ((pushList c0 ps).push b hgt).data
        = (pushList c0 ps).data ++ [(b, min hgt kWorldHeight)]) ∧
    (∀ b hgt, (pushList c0 ps).last = kWorldHeight →
      (pushList c0 ps).push b hgt = pushList c0 ps) := by
  have hwf : ColWF (pushList c0 ps) := pushList_wf c0 ps
  refine ⟨hwf.chain, ?_, ?_, ?_, ?_⟩
  · rw [← hwf.last_eq]
    exact colWF_last_le hwf
  · intro b hgt hle
    exact push_ignored b hgt (le_trans (min_le_left _ _) hle)
  · intro b hgt hlt
    exact (push_appends b hgt hlt).1
  · intro b hgt heq
    exact push_ignored b hgt (by rw [heq]; exact min_le_right _ _)

/-- Witness for C7: a concrete push sequence where a later push with
`topLevel` not above the running top is ignored. -/
theorem column_push_invariants_witness :
    7 ≤ (pushList colInit [(2, 10), (3, 5), (4, 300)]).last ∧
      (pushList colInit [(2, 10), (3, 5), (4, 300)]).push 9 7
        = pushList colInit [(2, 10), (3, 5), (4, 300)] :=
  ⟨by decide,
   (column_push_invariants colInit [(2, 10), (3, 5), (4, 300)]).2.2.1 9 7
     (by decide)⟩

/-! ## Chunk loading (Chunk.load / Column.fillChunk)

`Chunk.load` iterates the 16 x 16 columns (x outer, z inner), calls the
terrain callback, fills the chunk's voxel column and heightmap entry from
the run list and decorations (`Column.fillChunk` / `Chunk.setColumn`), and
finally derives the equi-level array.

The voxel volume (`Tensor3`) and heightmap (`Tensor2`) are modelled from
the spec: base.ts is not part of the provided sources; per the spec the
chunk "owns a dense voxel volume" and "a per-column cached top-solid-height
value", both backed by zero-initialized typed arrays, so they are modelled
as total functions initialized to zero. -/

/-- The run of empty voxels directly below height `start` in a column:
`emptyBelow v start` is how far the heightmap rescan loop of
`Chunk.updateHeightmap` walks down. -/
def emptyBelow (v : Nat → Nat) : Nat → Nat
  | 0 => 0
  | k + 1 => if v k = kEmptyBlock then emptyBelow v k + 1 else 0

/-- Chunk.updateHeightmap from engine.ts, for one column: `hm` is the cached
height, the write filled `[start, start+count)` with `block`, `v` is the
column after the write. -/
def updateHmVal (v : Nat → Nat) (hm start count block : Nat) : Nat :=
  if block = kEmptyBlock ∧ start < hm ∧ hm ≤ start + count then
    start - emptyBelow v start
  else if block ≠ kEmptyBlock ∧ hm ≤ start + count then start + count
  else hm

/-- Chunk.setColumn for one column: fill `[start, start+count)` with `block`
and update the cached height. -/
def setColumnEff (v : Nat → Nat) (hm : Nat) (start count block : Nat) :
    (Nat → Nat) × Nat :=
  let v' := fun y => if start ≤ y ∧ y < start + count then block else v y
  (v', updateHmVal v' hm start count block)

/-- Applying the run list to a column: each run `(block, level)` fills
`[previousTop, level)`; the accumulator carries the voxel column, the cached
height and the previous top. -/
def runsFold (data : List (Nat × Nat)) (acc : (Nat → Nat) × Nat × Nat) :
    (Nat → Nat) × Nat × Nat :=
  data.foldl
    (fun acc r =>
      let res := setColumnEff acc.1 acc.2.1 acc.2.2 (r.2 - acc.2.2) r.1
      (res.1, res.2, r.2))
    acc

/-- Applying the decorations: each `(block, y)` overwrites one voxel. -/
def decosFold (decos : List (Nat × Nat)) (acc : (Nat → Nat) × Nat) :
    (Nat → Nat) × Nat :=
  decos.foldl (fun acc d => setColumnEff acc.1 acc.2 d.2 1 d.1) acc

/-- The voxel/heightmap effect of `Column.fillChunk` on one column: apply
the runs bottom-up, then the decorations (which override the runs). -/
def fillChunkColumn (c : Column) (v : Nat → Nat) (hm : Nat) :
    (Nat → Nat) × Nat :=
  let rstate := runsFold c.data (v, hm, 0)
  decosFold c.decorations (rstate.1, rstate.2.1)

/-- The 256 chunk columns in loading order (x outer, z inner). -/
def colOrder : List (Nat × Nat) :=
  (List.range kChunkWidth).flatMap
    (fun x => (List.range kChunkWidth).map (fun z => (x, z)))

/-- Modelled from the spec: the dense voxel volume (base.ts `Tensor3`), the
per-column cached height (`Tensor2`) and the equi-level array a chunk owns.
base.ts is not under src/; per the spec these are dense arrays backed by
zero-initialized typed arrays, so they are modelled as total functions
initialized to zero. -/
structure ChunkData where
  voxels : Nat × Nat → Nat → Nat := fun _ _ => kEmptyBlock
  heightmap : Nat × Nat → Nat := fun _ => 0
  equilevels : Nat → Nat := fun _ => 0

/-- One iteration of the `Chunk.load` loop at column `p`: run the terrain
callback on the (cleared) shared column, fill the chunk, detect equi-level
changes (`first` iff `x + z = 0`), and clear the column. -/
def loadStep (loader : Int → Int → List ColOp) (cx cz : Int)
    (acc : ChunkData × Column) (p : Nat × Nat) : ChunkData × Column :=
  let c1 := acc.2.applyOps (loader ((p.1 : Int) + cx * 16) ((p.2 : Int) + cz * 16))
  let fill := fillChunkColumn c1 (acc.1.voxels p) (acc.1.heightmap p)
  let c2 := c1.detectEquiLevelChanges (p.1 + p.2 == 0)
  ({ acc.1 with
      voxels := Function.update acc.1.voxels p fill.1,
      heightmap := Function.update acc.1.heightmap p fill.2 },
   c2.clear)

/-- Chunk.load from engine.ts: fill all 256 columns, then derive the
equi-level array from the accumulated mismatch counters. -/
def loadChunkModel (loader : Int → Int → List ColOp) (cx cz : Int) :
    ChunkData × Column :=
  let st := colOrder.foldl (loadStep loader cx cz) ({}, colInit)
  ({ st.1 with equilevels := fillEquilevelsFn st.2.mismatches }, st.2)

/-! ## Exactness of the equi-level counters -/

theorem integral_congr {m m' : Nat → Int} (h : ∀ i, m i = m' i) (y : Nat) :
    integral m y = integral m' y := by
  induction y with
  | zero => simpa [integral] using h 0
  | succ y ih => simp [integral, ih, h (y + 1)]

theorem bump_apply (m : Nat → Int) (i : Nat) (v : Int) (x : Nat) :
    bump m i v x = if x = i then m i + v else m x := by
  simp [bump, Function.update_apply]

theorem integral_bump (m : Nat → Int) (i : Nat) (v : Int) (y : Nat) :
    integral (bump m i v) y = integral m y + if i ≤ y then v else 0 := by
  induction y with
  | zero =>
    rw [show integral (bump m i v) 0 = bump m i v 0 from rfl,
        show integral m 0 = m 0 from rfl, bump_apply]
    by_cases h : (0 : Nat) = i
    · subst h
      simp
    · have : ¬ i ≤ 0 := by omega
      simp [h, this]
  | succ y ih =>
    simp only [integral, ih, bump_apply]
    by_cases h : y + 1 = i
    · subst h
      have h1 : ¬ (y + 1) ≤ y := by omega
      simp [h1]
      ring
    · by_cases h3 : i ≤ y
      · have h4 : i ≤ y + 1 := by omega
        simp [h, h3, h4]
        ring
      · have h4 : ¬ i ≤ y + 1 := by omega
        simp [h, h3, h4]

/-- Number of decorations recorded exactly at height `y`. -/
def decoCount (decos : List (Nat × Nat)) (y : Nat) : Int :=
  ((decos.filter (fun d => d.2 == y)).length : Int)

theorem decoCount_nil (y : Nat) : decoCount [] y = 0 := rfl

theorem decoCount_cons (d : Nat × Nat) (t : List (Nat × Nat)) (y : Nat) :
    decoCount (d :: t) y = (if d.2 = y then 1 else 0) + decoCount t y := by
  by_cases h : d.2 = y
  · simp [decoCount, List.filter_cons, h]
    omega
  · simp [decoCount, List.filter_cons, h]

theorem decoCount_nonneg (decos : List (Nat × Nat)) (y : Nat) :
    0 ≤ decoCount decos y := by
  simp [decoCount]

/-- One decoration's deltas integrate to the indicator of its height. -/
theorem integral_decoStep (m : Nat → Int) (d : Nat × Nat) (y : Nat)
    (hd : d.2 < kWorldHeight) (hy : y < kWorldHeight) :
    integral
      (let m1 := bump m d.2 1
       if d.2 + 1 < kWorldHeight then bump m1 (d.2 + 1) (-1) else m1) y
      = integral m y + if d.2 = y then 1 else 0 := by
  by_cases hb : d.2 + 1 < kWorldHeight
  · simp only [hb, if_true, integral_bump]
    by_cases h1 : d.2 ≤ y
    · by_cases h2 : d.2 + 1 ≤ y
      · have : ¬ d.2 = y := by omega
        simp [h1, h2, this]
      · have : d.2 = y := by omega
        simp [h1, h2, this]
    · have h2 : ¬ d.2 + 1 ≤ y := by omega
      have : ¬ d.2 = y := by omega
      simp [h1, h2, this]
  · simp only [hb, if_false, integral_bump]
    by_cases h1 : d.2 ≤ y
    · have : d.2 = y := by omega
      simp [h1, this]
    · have : ¬ d.2 = y := by omega
      simp [h1, this]

/-- The topLevel of the first run (0 for an empty run list). -/
def headTop : List (Nat × Nat) → Nat
  | [] => 0
  | r :: _ => r.2

/-- Well-formedness of a sentinel-extended run list: nonempty, strictly
increasing tops, ending exactly at `kWorldHeight`, with a positive first
top. -/
structure ExtWF (l : List (Nat × Nat)) : Prop where
  ne : l ≠ []
  chain : List.Chain' (fun a b : Nat × Nat => a.2 < b.2) l
  last_eq : lastTop l = kWorldHeight
  headpos : 0 < headTop l

theorem lastTop_cons_of_ne (a : Nat × Nat) {l : List (Nat × Nat)}
    (h : l ≠ []) : lastTop (a :: l) = lastTop l := by
  cases l with
  | nil => exact absurd rfl h
  | cons b t => exact lastTop_cons_cons a b t

theorem headTop_tail_gt {a : Nat × Nat} {l : List (Nat × Nat)}
    (hch : List.Chain' (fun a b : Nat × Nat => a.2 < b.2) (a :: l))
    (h : l ≠ []) : a.2 < headTop l := by
  cases l with
  | nil => exact absurd rfl h
  | cons b t => exact (List.chain'_cons.mp hch).1

theorem runVal_cons_lt {b t y : Nat} {rest : List (Nat × Nat)} (h : y < t) :
    runVal ((b, t) :: rest) y = b := by
  simp [runVal, h]

theorem runVal_cons_ge {b t y : Nat} {rest : List (Nat × Nat)} (h : t ≤ y) :
    runVal ((b, t) :: rest) y = runVal rest y := by
  simp [runVal, Nat.not_lt.mpr h]

theorem extWF_head_le {l : List (Nat × Nat)} (h : ExtWF l) :
    headTop l ≤ kWorldHeight := by
  obtain ⟨ne, chain, last_eq, _⟩ := h
  cases l with
  | nil => exact absurd rfl ne
  | cons a t =>
    have ha : a.2 ≤ lastTop (a :: t) := mem_le_lastTop chain a (by simp)
    rw [last_eq] at ha
    simpa [headTop] using ha

/-- The change in the integrated counters from one `scanStep`. -/
theorem integral_scanStep (m : Nat → Int) (matched : Bool)
    (db rb dstart rstart y : Nat) :
    integral (scanStep m matched db rb dstart rstart) y
      = integral m y +
        (if max dstart rstart ≤ y then
          (if db == rb then 0 else 1) - (if matched then 0 else 1)
        else 0) := by
  unfold scanStep
  cases matched <;> cases hbe : (db == rb) <;>
    simp [integral_bump] <;> split <;> simp

theorem scanF_nil_left (m : Nat → Int) (fuel : Nat) (rs : List (Nat × Nat))
    (a b : Nat) (c : Bool) : scanF m fuel [] rs a b c = m := by
  cases fuel <;> rfl

theorem scanF_nil_right (m : Nat → Int) (fuel : Nat) (ds : List (Nat × Nat))
    (a b : Nat) (c : Bool) : scanF m fuel ds [] a b c = m := by
  cases fuel <;> cases ds <;> rfl

/-- Exactness of the merge scan: the deltas it records integrate, at every
height below the world height, to the indicator that the two run lists
disagree at that height (relative to the ambient `matched` state). -/
theorem scanF_integral (fuel : Nat) :
    ∀ (ds rs : List (Nat × Nat)) (dstart rstart : Nat)
      (matched : Bool) (m : Nat → Int),
      ds.length + rs.length ≤ fuel →
      ExtWF ds → ExtWF rs →
      dstart < headTop ds → rstart < headTop rs →
      dstart < headTop rs → rstart < headTop ds →
      ∀ y, y < kWorldHeight →
        integral (scanF m fuel ds rs dstart rstart matched) y
          = integral m y +
            (if max dstart rstart ≤ y then
              (if runVal ds y = runVal rs y then 0 else 1)
                - (if matched then 0 else 1)
            else 0) := by
  induction fuel with
  | zero =>
    intro ds rs _ _ _ _ hlen hd _ _ _ _ _
    cases hds : ds with
    | nil => exact absurd hds hd.ne
    | cons a t => subst hds; simp at hlen
  | succ fuel ih =>
    intro ds rs dstart rstart matched m hlen hd hr hd1 hr1 hdr hrd y hy
    cases hds : ds with
    | nil => exact absurd hds hd.ne
    | cons dh dtl =>
    cases hrs : rs with
    | nil => exact absurd hrs hr.ne
    | cons rh rtl =>
    subst hds hrs
    obtain ⟨db, dl⟩ := dh
    obtain ⟨rb, rl⟩ := rh
    have hdlH : dl ≤ kWorldHeight := by
      have := extWF_head_le hd; simpa [headTop] using this
    have hrlH : rl ≤ kWorldHeight := by
      have := extWF_head_le hr; simpa [headTop] using this
    have hd1' : dstart < dl := by simpa [headTop] using hd1
    have hr1' : rstart < rl := by simpa [headTop] using hr1
    have hdr' : dstart < rl := by simpa [headTop] using hdr
    have hrd' : rstart < dl := by simpa [headTop] using hrd
    by_cases hdlrl : dl ≤ rl
    · by_cases hrldl : rl ≤ dl
      · -- both advance; dl = rl
        have hdleq : dl = rl := le_antisymm hdlrl hrldl
        rw [show scanF m (fuel + 1) ((db, dl) :: dtl) ((rb, rl) :: rtl)
              dstart rstart matched
            = scanF (scanStep m matched db rb dstart rstart) fuel dtl rtl
              dl rl (db == rb) by simp [scanF, hdlrl, hrldl]]
        by_cases hdtl : dtl = []
        · -- both lists exhausted: dl = rl = kWorldHeight
          have hdlK : dl = kWorldHeight := by
            have := hd.last_eq
            subst hdtl
            simpa [lastTop] using this
          have hrtl : rtl = [] := by
            by_contra hne
            have h1 : rl < headTop rtl := headTop_tail_gt hr.chain hne
            have h2 : headTop rtl ≤ kWorldHeight := by
              cases hrt : rtl with
              | nil => exact absurd hrt hne
              | cons x t =>
                have hx : x ∈ (rb, rl) :: rtl := by rw [hrt]; simp
                have := mem_le_lastTop hr.chain x hx
                rw [hr.last_eq] at this
                simpa [hrt, headTop] using this
            omega
          subst hdtl hrtl
          rw [scanF_nil_left]
          rw [integral_scanStep]
          have hydl : y < dl := by omega
          rw [runVal_cons_lt hydl, runVal_cons_lt (show y < rl by omega)]
          by_cases hbe : db = rb <;> simp [hbe]
        · have hrtl : rtl ≠ [] := by
            intro hrtl
            have hrlK : rl = kWorldHeight := by
              have := hr.last_eq
              subst hrtl
              simpa [lastTop] using this
            have h1 : dl < headTop dtl := headTop_tail_gt hd.chain hdtl
            have h2 : headTop dtl ≤ kWorldHeight := by
              cases hdt : dtl with
              | nil => exact absurd hdt hdtl
              | cons x t =>
                have hx : x ∈ (db, dl) :: dtl := by rw [hdt]; simp
                have := mem_le_lastTop hd.chain x hx
                rw [hd.last_eq] at this
                simpa [hdt, headTop] using this
            omega
          have hdwf : ExtWF dtl :=
            ⟨hdtl, hd.chain.tail, by rw [← lastTop_cons_of_ne (db, dl) hdtl]; exact hd.last_eq,
             lt_of_le_of_lt (Nat.zero_le dl) (headTop_tail_gt hd.chain hdtl)⟩
          have hrwf : ExtWF rtl :=
            ⟨hrtl, hr.chain.tail, by rw [← lastTop_cons_of_ne (rb, rl) hrtl]; exact hr.last_eq,
             lt_of_le_of_lt (Nat.zero_le rl) (headTop_tail_gt hr.chain hrtl)⟩
          have hdh : dl < headTop dtl := headTop_tail_gt hd.chain hdtl
          have hrh : rl < headTop rtl := headTop_tail_gt hr.chain hrtl
          rw [ih dtl rtl dl rl (db == rb) _ (by simp at hlen ⊢; omega)
              hdwf hrwf hdh hrh (by omega) (by omega) y hy]
          rw [integral_scanStep]
          have hmax : max dl rl = dl := by omega
          by_cases hys : max dstart rstart ≤ y
          · by_cases hydl : dl ≤ y
            · rw [runVal_cons_ge hydl, runVal_cons_ge (show rl ≤ y by omega)]
              simp only [hmax, if_pos hys, if_pos hydl]
              by_cases hbe : db = rb <;> simp [hbe] <;> ring
            · rw [runVal_cons_lt (by omega), runVal_cons_lt (by omega)]
              simp only [hmax, if_pos hys, if_neg hydl]
              by_cases hbe : db = rb <;> simp [hbe] <;> ring
          · have hyd : ¬ dl ≤ y := by omega
            simp only [hmax, if_neg hys, if_neg hyd]
            ring
      · -- d advances only; dl < rl
        have hdllt : dl < rl := by omega
        rw [show scanF m (fuel + 1) ((db, dl) :: dtl) ((rb, rl) :: rtl)
              dstart rstart matched
            = scanF (scanStep m matched db rb dstart rstart) fuel dtl
              ((rb, rl) :: rtl) dl rstart (db == rb) by
              simp [scanF, hdlrl, hrldl]]
        have hdtl : dtl ≠ [] := by
          intro hdtl
          have hdlK : dl = kWorldHeight := by
            have := hd.last_eq
            subst hdtl
            simpa [lastTop] using this
          omega
        have hdwf : ExtWF dtl :=
          ⟨hdtl, hd.chain.tail, by rw [← lastTop_cons_of_ne (db, dl) hdtl]; exact hd.last_eq,
           lt_of_le_of_lt (Nat.zero_le dl) (headTop_tail_gt hd.chain hdtl)⟩
        have hdh : dl < headTop dtl := headTop_tail_gt hd.chain hdtl
        rw [ih dtl ((rb, rl) :: rtl) dl rstart (db == rb) _
            (by simp at hlen ⊢; omega) hdwf hr hdh
            (by simpa [headTop] using hr1') (by simpa [headTop] using hdllt)
            (by simpa [headTop] using lt_trans hrd' hdh) y hy]
        rw [integral_scanStep]
        have hmax : max dl rstart = dl := by omega
        by_cases hys : max dstart rstart ≤ y
        · by_cases hydl : dl ≤ y
          · rw [runVal_cons_ge hydl]
            simp only [hmax, if_pos hys, if_pos hydl]
            by_cases hbe : db = rb <;> simp [hbe] <;> ring
          · rw [runVal_cons_lt (by omega), runVal_cons_lt (by omega)]
            simp only [hmax, if_pos hys, if_neg hydl]
            by_cases hbe : db = rb <;> simp [hbe] <;> ring
        · have hyd : ¬ dl ≤ y := by omega
          simp only [hmax, if_neg hys, if_neg hyd]
          ring
    · -- r advances only; rl < dl
      have hrllt : rl < dl := by omega
      rw [show scanF m (fuel + 1) ((db, dl) :: dtl) ((rb, rl) :: rtl)
            dstart rstart matched
          = scanF (scanStep m matched db rb dstart rstart) fuel
            ((db, dl) :: dtl) rtl dstart rl (db == rb) by
            simp [scanF, hdlrl]]
      have hrtl : rtl ≠ [] := by
        intro hrtl
        have hrlK : rl = kWorldHeight := by
          have := hr.last_eq
          subst hrtl
          simpa [lastTop] using this
        omega
      have hrwf : ExtWF rtl :=
        ⟨hrtl, hr.chain.tail, by rw [← lastTop_cons_of_ne (rb, rl) hrtl]; exact hr.last_eq,
         lt_of_le_of_lt (Nat.zero_le rl) (headTop_tail_gt hr.chain hrtl)⟩
      have hrh : rl < headTop rtl := headTop_tail_gt hr.chain hrtl
      rw [ih ((db, dl) :: dtl) rtl dstart rl (db == rb) _
          (by simp at hlen ⊢; omega) hd hrwf
          (by simpa [headTop] using hd1') hrh
          (by simpa [headTop] using lt_trans hdr' hrh)
          (by simpa [headTop] using hrllt) y hy]
      rw [integral_scanStep]
      have hmax : max dstart rl = rl := by omega
      by_cases hys : max dstart rstart ≤ y
      · by_cases hyrl : rl ≤ y
        · rw [runVal_cons_ge hyrl]
          simp only [hmax, if_pos hys, if_pos hyrl]
          by_cases hbe : db = rb <;> simp [hbe] <;> ring
        · rw [runVal_cons_lt (show y < dl by omega), runVal_cons_lt (by omega)]
          simp only [hmax, if_pos hys, if_neg hyrl]
          by_cases hbe : db = rb <;> simp [hbe] <;> ring
      · have hyr : ¬ rl ≤ y := by omega
        simp only [hmax, if_neg hys, if_neg hyr]
        ring

/-- Exactness of one full merge scan started in the matched state. -/
theorem scanRuns_integral (ds rs : List (Nat × Nat)) (m : Nat → Int)
    (hd : ExtWF ds) (hr : ExtWF rs) (y : Nat) (hy : y < kWorldHeight) :
    integral (scanRuns ds rs m) y
      = integral m y + (if runVal ds y = runVal rs y then 0 else 1) := by
  unfold scanRuns
  rw [scanF_integral (ds.length + rs.length) ds rs 0 0 true m le_rfl hd hr
      hd.headpos hr.headpos hr.headpos hd.headpos y hy]
  simp

theorem integral_applyDecos (decos : List (Nat × Nat)) (m : Nat → Int)
    (y : Nat) (hwf : ∀ d ∈ decos, d.2 < kWorldHeight) (hy : y < kWorldHeight) :
    integral (applyDecos decos m) y = integral m y + decoCount decos y := by
  induction decos generalizing m with
  | nil => simp [applyDecos, decoCount_nil]
  | cons d t ih =>
    have hd : d.2 < kWorldHeight := hwf d (by simp)
    have ht : ∀ d ∈ t, d.2 < kWorldHeight := fun d hdm => hwf d (by simp [hdm])
    have step := integral_decoStep m d y hd hy
    simp only [applyDecos, List.foldl_cons] at *
    rw [ih _ ht, step, decoCount_cons]
    ring

theorem integral_zero (y : Nat) : integral (fun _ => (0 : Int)) y = 0 := by
  induction y with
  | zero => rfl
  | succ y ih => simp [integral, ih]

/-- The sentinel-extended run list of a well-formed column is well-formed. -/
theorem extWF_extendData {c : Column} (h : ColWF c) : ExtWF (extendData c) := by
  unfold extendData
  by_cases hl : c.last < kWorldHeight
  · simp only [hl, if_true]
    refine ⟨by simp, ?_, ?_, ?_⟩
    · rw [List.chain'_append]
      refine ⟨h.chain, List.chain'_singleton _, ?_⟩
      intro x hx y hy
      simp only [List.head?_cons, Option.mem_def, Option.some.injEq] at hy
      subst hy
      have hx' : x ∈ c.data := List.mem_of_mem_getLast? hx
      have h1 : x.2 ≤ lastTop c.data := mem_le_lastTop h.chain x hx'
      have h2 : c.last = lastTop c.data := h.last_eq
      simp only []
      omega
    · exact lastTop_append_one _ _
    · cases hd : c.data with
      | nil => simp [headTop, kWorldHeight]
      | cons a t =>
        have ha : 0 < a.2 := h.pos a (by rw [hd]; simp)
        simpa [headTop] using ha
  · have hle : c.last ≤ kWorldHeight := colWF_last_le h
    have heq : c.last = kWorldHeight := by omega
    simp only [hl, if_false]
    have hne : c.data ≠ [] := by
      intro hnil
      have := h.last_eq
      rw [hnil] at this
      simp [lastTop] at this
      rw [this] at heq
      simp [kWorldHeight] at heq
    refine ⟨hne, h.chain, by rw [← h.last_eq]; exact heq, ?_⟩
    cases hd : c.data with
    | nil => exact absurd hd hne
    | cons a t =>
      have ha : 0 < a.2 := h.pos a (by rw [hd]; simp)
      simpa [headTop] using ha

/-- push and overwrite never touch the mismatch counters or the reference
column. -/
theorem applyOps_mism_ref (c : Column) (ops : List ColOp) :
    (c.applyOps ops).mismatches = c.mismatches ∧
      (c.applyOps ops).reference_data = c.reference_data := by
  induction ops generalizing c with
  | nil => exact ⟨rfl, rfl⟩
  | cons op t ih =>
    have hstep : (c.applyOp op).mismatches = c.mismatches ∧
        (c.applyOp op).reference_data = c.reference_data := by
      cases op with
      | push b hgt =>
        simp only [Column.applyOp]
        unfold Column.push
        by_cases hc : hgt ⊓ kWorldHeight ≤ c.last <;> simp [hc]
      | overwrite b y =>
        simp only [Column.applyOp]
        unfold Column.overwrite
        by_cases hc : y < kWorldHeight <;> simp [hc]
    have := ih (c.applyOp op)
    simp only [Column.applyOps, List.foldl_cons] at *
    exact ⟨this.1.trans hstep.1, this.2.trans hstep.2⟩

/-- push and overwrite read and write only the run list, the decorations
and the running top, so those fields evolve identically from states that
agree on them. -/
theorem applyOps_core_eq (ops : List ColOp) :
    ∀ (c c' : Column), c.data = c'.data → c.decorations = c'.decorations →
      c.last = c'.last →
      (c.applyOps ops).data = (c'.applyOps ops).data ∧
        (c.applyOps ops).decorations = (c'.applyOps ops).decorations ∧
        (c.applyOps ops).last = (c'.applyOps ops).last := by
  induction ops with
  | nil => intro c c' h1 h2 h3; exact ⟨h1, h2, h3⟩
  | cons op t ih =>
    intro c c' h1 h2 h3
    have hstep : (c.applyOp op).data = (c'.applyOp op).data ∧
        (c.applyOp op).decorations = (c'.applyOp op).decorations ∧
        (c.applyOp op).last = (c'.applyOp op).last := by
      cases op with
      | push b hgt =>
        simp only [Column.applyOp]
        unfold Column.push
        rw [h3]
        by_cases hc : hgt ⊓ kWorldHeight ≤ c'.last <;> simp [hc, h1, h2, h3]
      | overwrite b y =>
        simp only [Column.applyOp]
        unfold Column.overwrite
        by_cases hc : y < kWorldHeight <;> simp [hc, h1, h2, h3]
    simp only [Column.applyOps, List.foldl_cons] at *
    exact ih _ _ hstep.1 hstep.2.1 hstep.2.2

/-- Transport of column well-formedness along equal core fields. -/
theorem colWF_of_core_eq {c c' : Column} (h1 : c.data = c'.data)
    (h2 : c.decorations = c'.decorations) (h3 : c.last = c'.last)
    (h : ColWF c) : ColWF c' :=
  ⟨h1 ▸ h.chain, h1 ▸ h.le_h, h1 ▸ h.pos, h3 ▸ h1 ▸ h.last_eq, h2 ▸ h.decos⟩

/-! ### Characterizing the voxels written by fillChunk -/

/-- The final top used by the run-fill characterization: the last run top,
or the starting top for an empty run list. -/
def lastTopD (last : Nat) (l : List (Nat × Nat)) : Nat :=
  match l with
  | [] => last
  | _ :: _ => lastTop l

theorem lastTopD_of_ne {l : List (Nat × Nat)} (last : Nat) (h : l ≠ []) :
    lastTopD last l = lastTop l := by
  cases l with
  | nil => exact absurd rfl h
  | cons a t => rfl

theorem runsFold_fst (data : List (Nat × Nat)) :
    ∀ (last : Nat) (v : Nat → Nat) (hm : Nat),
      List.Chain' (fun a b : Nat × Nat => a.2 < b.2) data →
      (data ≠ [] → last ≤ headTop data) →
      ∀ y, (runsFold data (v, hm, last)).1 y
        = if last ≤ y ∧ y < lastTopD last data then runVal data y else v y := by
  induction data with
  | nil =>
    intro last v hm _ _ y
    have hno : ¬ (last ≤ y ∧ y < lastTopD last []) := by
      simp only [lastTopD]
      omega
    simp [runsFold, hno]
  | cons r rest ih =>
    intro last v hm hch hhd y
    obtain ⟨b, t⟩ := r
    have hlt : last ≤ t := by simpa [headTop] using hhd (by simp)
    have hstep : runsFold ((b, t) :: rest) (v, hm, last)
        = runsFold rest
            ((setColumnEff v hm last (t - last) b).1,
             (setColumnEff v hm last (t - last) b).2, t) := by
      simp [runsFold]
    rw [hstep]
    have hch' : List.Chain' (fun a b : Nat × Nat => a.2 < b.2) rest :=
      hch.tail
    have hhd' : rest ≠ [] → t ≤ headTop rest := by
      intro hne
      exact le_of_lt (headTop_tail_gt hch hne)
    rw [ih t _ _ hch' hhd' y]
    have hv : (setColumnEff v hm last (t - last) b).1 y
        = if last ≤ y ∧ y < t then b else v y := by
      simp only [setColumnEff]
      by_cases hc : last ≤ y ∧ y < last + (t - last)
      · have hc' : last ≤ y ∧ y < t := by omega
        simp [hc, hc']
      · have hc' : ¬ (last ≤ y ∧ y < t) := by omega
        simp [hc, hc']
    by_cases hrne : rest = []
    · subst hrne
      have hco : ¬ (t ≤ y ∧ y < lastTopD t []) := by
        simp only [lastTopD]
        omega
      rw [if_neg hco, hv]
      by_cases hy1 : last ≤ y ∧ y < t
      · have hcond : last ≤ y ∧ y < lastTopD last [(b, t)] := by
          simp only [lastTopD, lastTop, List.getLast?_singleton]
          omega
        rw [if_pos hy1, if_pos hcond, runVal_cons_lt hy1.2]
      · have hcond : ¬ (last ≤ y ∧ y < lastTopD last [(b, t)]) := by
          simp only [lastTopD, lastTop, List.getLast?_singleton]
          omega
        rw [if_neg hy1, if_neg hcond]
    · have hth : t < headTop rest := headTop_tail_gt hch hrne
      have hhl : headTop rest ≤ lastTop rest := by
        cases hr2 : rest with
        | nil => exact absurd hr2 hrne
        | cons a s =>
          have := mem_le_lastTop hch' a (by rw [hr2]; simp)
          simpa [hr2, headTop] using this
      have hltD : lastTopD t rest = lastTop rest := lastTopD_of_ne t hrne
      have hltD2 : lastTopD last ((b, t) :: rest) = lastTop rest := by
        rw [lastTopD_of_ne last (by simp)]
        exact lastTop_cons_of_ne _ hrne
      rw [hltD, hltD2]
      by_cases h1 : t ≤ y ∧ y < lastTop rest
      · have hcond : last ≤ y ∧ y < lastTop rest := by omega
        rw [if_pos h1, if_pos hcond, runVal_cons_ge h1.1]
      · rw [if_neg h1, hv]
        by_cases h2 : last ≤ y ∧ y < t
        · have hcond : last ≤ y ∧ y < lastTop rest := by omega
          rw [if_pos h2, if_pos hcond, runVal_cons_lt h2.2]
        · have hcond : ¬ (last ≤ y ∧ y < lastTop rest) := by omega
          rw [if_neg h2, if_neg hcond]

/-- The voxel part of the run fill is independent of the cached height. -/
theorem runsFold_fst_hm (data : List (Nat × Nat)) :
    ∀ (last : Nat) (v : Nat → Nat) (hm hm' : Nat),
      (runsFold data (v, hm, last)).1 = (runsFold data (v, hm', last)).1 ∧
        (runsFold data (v, hm, last)).2.2 = (runsFold data (v, hm', last)).2.2 := by
  induction data with
  | nil => intro last v hm hm'; exact ⟨rfl, rfl⟩
  | cons r rest ih =>
    intro last v hm hm'
    simp only [runsFold, List.foldl_cons]
    exact ih r.2 _ _ _

/-- The voxel part of the decoration fill is independent of the cached
height. -/
theorem decosFold_fst_hm (decos : List (Nat × Nat)) :
    ∀ (v : Nat → Nat) (hm hm' : Nat),
      (decosFold decos (v, hm)).1 = (decosFold decos (v, hm')).1 := by
  induction decos with
  | nil => intro v hm hm'; rfl
  | cons d t ih =>
    intro v hm hm'
    simp only [decosFold, List.foldl_cons]
    exact ih _ _ _

theorem fillChunkColumn_fst_hm (c : Column) (v : Nat → Nat) (hm hm' : Nat) :
    (fillChunkColumn c v hm).1 = (fillChunkColumn c v hm').1 := by
  simp only [fillChunkColumn]
  have h1 := runsFold_fst_hm c.data 0 v hm hm'
  rw [h1.1]
  exact decosFold_fst_hm c.decorations _ _ _

/-- Heights with no decoration keep the run-fill value. -/
theorem decosFold_fst_notat (decos : List (Nat × Nat)) :
    ∀ (v : Nat → Nat) (hm : Nat) (y : Nat), (∀ d ∈ decos, d.2 ≠ y) →
      (decosFold decos (v, hm)).1 y = v y := by
  induction decos with
  | nil => intro v hm y _; rfl
  | cons d t ih =>
    intro v hm y hnd
    simp only [decosFold, List.foldl_cons]
    have hd : d.2 ≠ y := hnd d (by simp)
    have hv : (setColumnEff v hm d.2 1 d.1).1 y = v y := by
      simp only [setColumnEff]
      have hno : ¬ (d.2 ≤ y ∧ y < d.2 + 1) := by omega
      simp [hno]
    have ihres := ih (setColumnEff v hm d.2 1 d.1).1
      (setColumnEff v hm d.2 1 d.1).2 y (fun d2 hdm => hnd d2 (by simp [hdm]))
    simp only [decosFold] at ihres
    have hgoal : (List.foldl (fun acc d => setColumnEff acc.1 acc.2 d.2 1 d.1)
        ((setColumnEff v hm d.2 1 d.1).1, (setColumnEff v hm d.2 1 d.1).2)
        t).1 y = v y := by
      rw [ihres, hv]
    exact hgoal

theorem runVal_append_of_ge (l l2 : List (Nat × Nat)) (y : Nat)
    (h : ∀ r ∈ l, r.2 ≤ y) : runVal (l ++ l2) y = runVal l2 y := by
  induction l with
  | nil => rfl
  | cons r rest ih =>
    obtain ⟨b, t⟩ := r
    have ht : t ≤ y := by simpa using h (b, t) (by simp)
    rw [List.cons_append, runVal_cons_ge ht]
    exact ih (fun r hr => h r (by simp [hr]))

theorem runVal_append_of_lt (l l2 : List (Nat × Nat)) (y : Nat)
    (hch : List.Chain' (fun a b : Nat × Nat => a.2 < b.2) l)
    (h : y < lastTop l) : runVal (l ++ l2) y = runVal l y := by
  induction l with
  | nil => simp [lastTop] at h
  | cons r rest ih =>
    obtain ⟨b, t⟩ := r
    by_cases hy : y < t
    · rw [List.cons_append, runVal_cons_lt hy, runVal_cons_lt hy]
    · have hty : t ≤ y := by omega
      have hrne : rest ≠ [] := by
        intro hre
        subst hre
        simp [lastTop] at h
        omega
      rw [List.cons_append, runVal_cons_ge hty, runVal_cons_ge hty]
      exact ih hch.tail (by rwa [lastTop_cons_of_ne _ hrne] at h)

/-- The block `fillChunk` leaves at a height with no decoration equals the
value of the sentinel-extended run list there. -/
theorem fillValue_eq_runVal_ext (c : Column) (hwf : ColWF c) (hm : Nat)
    (y : Nat) (hy : y < kWorldHeight)
    (hnd : ∀ d ∈ c.decorations, d.2 ≠ y) :
    (fillChunkColumn c (fun _ => kEmptyBlock) hm).1 y
      = runVal (extendData c) y := by
  simp only [fillChunkColumn]
  rw [decosFold_fst_notat c.decorations _ _ y hnd]
  rw [runsFold_fst c.data 0 (fun _ => kEmptyBlock) hm hwf.chain
      (fun _ => Nat.zero_le _) y]
  cases hd : c.data with
  | nil =>
    have hlast : c.last = 0 := by
      have := hwf.last_eq
      rw [hd] at this
      simpa [lastTop] using this
    have hcond : ¬ (0 ≤ y ∧ y < lastTopD 0 ([] : List (Nat × Nat))) := by
      simp [lastTopD]
    rw [if_neg hcond]
    unfold extendData
    rw [hd, hlast]
    have : (0 : Nat) < kWorldHeight := by simp [kWorldHeight]
    rw [if_pos this]
    simp only [List.nil_append]
    rw [runVal_cons_lt hy]
  | cons a t =>
    rw [← hd]
    have hne : c.data ≠ [] := by rw [hd]; simp
    have hltD : lastTopD 0 c.data = lastTop c.data := by
      rw [hd]; simp [lastTopD]
    rw [hltD]
    by_cases hcase : y < lastTop c.data
    · rw [if_pos ⟨Nat.zero_le _, hcase⟩]
      unfold extendData
      by_cases hl : c.last < kWorldHeight
      · rw [if_pos hl, runVal_append_of_lt _ _ _ hwf.chain hcase]
      · rw [if_neg hl]
    · rw [if_neg (by omega)]
      have hlasty : c.last ≤ y := by
        rw [hwf.last_eq]; omega
      have hl : c.last < kWorldHeight := by omega
      unfold extendData
      rw [if_pos hl]
      rw [runVal_append_of_ge _ _ _ (fun r hr => by
        have := mem_le_lastTop hwf.chain r hr
        rw [← hwf.last_eq] at this
        omega)]
      rw [runVal_cons_lt hy]

/-! ### The invariant of the 256-column load fold -/

/-- The calls the terrain callback makes for column `p` of chunk
`(cx, cz)`. -/
def opsAt (loader : Int → Int → List ColOp) (cx cz : Int) (p : Nat × Nat) :
    List ColOp :=
  loader ((p.1 : Int) + cx * 16) ((p.2 : Int) + cz * 16)

/-- The run/decoration state the callback builds for column `p`. -/
def colAt (loader : Int → Int → List ColOp) (cx cz : Int) (p : Nat × Nat) :
    Column :=
  colInit.applyOps (opsAt loader cx cz p)

def extAt (loader : Int → Int → List ColOp) (cx cz : Int) (p : Nat × Nat) :
    List (Nat × Nat) :=
  extendData (colAt loader cx cz p)

def decosAt (loader : Int → Int → List ColOp) (cx cz : Int) (p : Nat × Nat) :
    List (Nat × Nat) :=
  (colAt loader cx cz p).decorations

/-- The voxel column `fillChunk` writes for column `p` (from the
zero-initialized volume). -/
def voxAt (loader : Int → Int → List ColOp) (cx cz : Int) (p : Nat × Nat) :
    Nat → Nat :=
  (fillChunkColumn (colAt loader cx cz p) (fun _ => kEmptyBlock) 0).1

/-- Column `p`'s contribution to the integrated mismatch count at height
`y`: its decorations at `y`, plus one if its runs disagree with the
reference column (0,0) at `y`. -/
def colContrib (loader : Int → Int → List ColOp) (cx cz : Int)
    (p : Nat × Nat) (y : Nat) : Int :=
  decoCount (decosAt loader cx cz p) y +
    (if runVal (extAt loader cx cz p) y = runVal (extAt loader cx cz (0, 0)) y
     then 0 else 1)

theorem colContrib_nonneg (loader : Int → Int → List ColOp) (cx cz : Int)
    (p : Nat × Nat) (y : Nat) : 0 ≤ colContrib loader cx cz p y := by
  unfold colContrib
  have h1 := decoCount_nonneg (decosAt loader cx cz p) y
  split <;> omega

theorem extendData_congr {c c' : Column} (h1 : c.data = c'.data)
    (h3 : c.last = c'.last) : extendData c = extendData c' := by
  unfold extendData
  rw [h1, h3]

theorem fillChunkColumn_congr {c c' : Column} (h1 : c.data = c'.data)
    (h2 : c.decorations = c'.decorations) (v : Nat → Nat) (hm : Nat) :
    fillChunkColumn c v hm = fillChunkColumn c' v hm := by
  simp only [fillChunkColumn]
  rw [h1, h2]

/-- The invariant carried through `Chunk.load`'s column loop after the
columns `processed` (which include the first column `(0,0)`). -/
structure Mid (loader : Int → Int → List ColOp) (cx cz : Int)
    (processed : List (Nat × Nat)) (st : ChunkData × Column) : Prop where
  data_nil : st.2.data = []
  deco_nil : st.2.decorations = []
  last_zero : st.2.last = 0
  ref : st.2.reference_data = extAt loader cx cz (0, 0)
  mism : ∀ y, y < kWorldHeight →
    integral st.2.mismatches y
      = (processed.map (fun p => colContrib loader cx cz p y)).sum
  vox_done : ∀ p ∈ processed, st.1.voxels p = voxAt loader cx cz p
  vox_todo : ∀ p, p ∉ processed → st.1.voxels p = fun _ => kEmptyBlock

theorem mid_step (loader : Int → Int → List ColOp) (cx cz : Int)
    (processed : List (Nat × Nat)) (st : ChunkData × Column) (p : Nat × Nat)
    (hfirst : p.1 + p.2 ≠ 0) (hnp : p ∉ processed)
    (hmid : Mid loader cx cz processed st) :
    Mid loader cx cz (processed ++ [p]) (loadStep loader cx cz st p) := by
  have hwfp : ColWF (colAt loader cx cz p) :=
    colWF_applyOps colWF_init (opsAt loader cx cz p)
  have hcore := applyOps_core_eq (opsAt loader cx cz p) st.2 colInit
    (by rw [hmid.data_nil]; rfl) (by rw [hmid.deco_nil]; rfl)
    (by rw [hmid.last_zero]; rfl)
  have hmr := applyOps_mism_ref st.2 (opsAt loader cx cz p)
  set c1 := st.2.applyOps (opsAt loader cx cz p) with hc1
  have hd1 : c1.data = (colAt loader cx cz p).data := hcore.1
  have hd2 : c1.decorations = (colAt loader cx cz p).decorations := hcore.2.1
  have hd3 : c1.last = (colAt loader cx cz p).last := hcore.2.2
  have hwf1 : ColWF c1 := colWF_of_core_eq hd1.symm hd2.symm hd3.symm hwfp
  have hflag : (p.1 + p.2 == 0) = false := by
    simp [hfirst]
  have hstep : loadStep loader cx cz st p
      = ({ st.1 with
            voxels := Function.update st.1.voxels p
              (fillChunkColumn c1 (st.1.voxels p) (st.1.heightmap p)).1,
            heightmap := Function.update st.1.heightmap p
              (fillChunkColumn c1 (st.1.voxels p) (st.1.heightmap p)).2 },
         (c1.detectEquiLevelChanges false).clear) := by
    simp only [loadStep, hflag]
    rfl
  rw [hstep]
  have hdet : (c1.detectEquiLevelChanges false).clear.reference_data
        = c1.reference_data ∧
      (c1.detectEquiLevelChanges false).clear.mismatches
        = scanRuns (extendData c1) c1.reference_data
            (applyDecos c1.decorations c1.mismatches) := by
    simp [Column.detectEquiLevelChanges, Column.clear]
  refine ⟨?_, ?_, ?_, ?_, ?_, ?_, ?_⟩
  · simp [Column.clear]
  · simp [Column.clear]
  · simp [Column.clear]
  · rw [hdet.1, hmr.2, hmid.ref]
  · intro y hy
    rw [hdet.2]
    have hext : extendData c1 = extAt loader cx cz p :=
      extendData_congr hd1 hd3
    have href : c1.reference_data = extAt loader cx cz (0, 0) := by
      rw [hmr.2, hmid.ref]
    rw [hext, href, hd2]
    have hwfe : ExtWF (extAt loader cx cz p) := extWF_extendData hwfp
    have hwfr : ExtWF (extAt loader cx cz (0, 0)) :=
      extWF_extendData (colWF_applyOps colWF_init _)
    rw [scanRuns_integral _ _ _ hwfe hwfr y hy]
    rw [integral_applyDecos _ _ y hwfp.decos hy]
    rw [hmr.1, hmid.mism y hy]
    simp only [List.map_append, List.map_cons, List.map_nil, List.sum_append,
      List.sum_cons, List.sum_nil, colContrib, decosAt]
    ring
  · intro q hq
    rcases List.mem_append.mp hq with hq1 | hq1
    · have hne : q ≠ p := fun h => hnp (h ▸ hq1)
      simp only []
      rw [Function.update_noteq hne]
      exact hmid.vox_done q hq1
    · simp only [List.mem_singleton] at hq1
      subst hq1
      simp only []
      rw [Function.update_same]
      rw [hmid.vox_todo q hnp]
      rw [fillChunkColumn_fst_hm c1 _ _ 0]
      rw [fillChunkColumn_congr hd1 hd2]
      rfl
  · intro q hq
    have hq1 : q ∉ processed := fun h => hq (List.mem_append.mpr (Or.inl h))
    have hne : q ≠ p := fun h => hq (List.mem_append.mpr (Or.inr (by simp [h])))
    simp only []
    rw [Function.update_noteq hne]
    exact hmid.vox_todo q hq1

theorem mid_fold (loader : Int → Int → List ColOp) (cx cz : Int) :
    ∀ (rest processed : List (Nat × Nat)) (st : ChunkData × Column),
      (∀ p ∈ rest, p.1 + p.2 ≠ 0) →
      (∀ p ∈ rest, p ∉ processed) →
      rest.Nodup →
      Mid loader cx cz processed st →
      Mid loader cx cz (processed ++ rest)
        (rest.foldl (loadStep loader cx cz) st) := by
  intro rest
  induction rest with
  | nil =>
    intro processed st _ _ _ h
    simpa using h
  | cons p rest' ih =>
    intro processed st hf hnp hnd hmid
    have hstep := mid_step loader cx cz processed st p (hf p (by simp))
      (hnp p (by simp)) hmid
    have hnd' : rest'.Nodup := (List.nodup_cons.mp hnd).2
    have hpn : p ∉ rest' := (List.nodup_cons.mp hnd).1
    have hres := ih (processed ++ [p]) (loadStep loader cx cz st p)
      (fun q hq => hf q (by simp [hq]))
      (fun q hq hmem => by
        rcases List.mem_append.mp hmem with h1 | h1
        · exact hnp q (by simp [hq]) h1
        · simp only [List.mem_singleton] at h1
          exact hpn (h1 ▸ hq))
      hnd' hstep
    have hl : (processed ++ [p]) ++ rest' = processed ++ p :: rest' := by
      simp
    rw [hl] at hres
    simpa [List.foldl_cons] using hres

theorem colOrder_nodup : colOrder.Nodup := by
  have h : colOrder = (List.range kChunkWidth).product (List.range kChunkWidth) :=
    rfl
  rw [h]
  exact List.Nodup.product (List.nodup_range _) (List.nodup_range _)

theorem mem_colOrder (p : Nat × Nat) :
    p ∈ colOrder ↔ p.1 < kChunkWidth ∧ p.2 < kChunkWidth := by
  unfold colOrder
  simp only [List.mem_flatMap, List.mem_map, List.mem_range]
  constructor
  · rintro ⟨x, hx, z, hz, rfl⟩
    exact ⟨hx, hz⟩
  · intro h
    exact ⟨p.1, h.1, p.2, h.2, rfl⟩

theorem colOrder_head : colOrder = (0, 0) :: colOrder.tail := rfl

/-- The invariant after the first column, which becomes the reference. -/
theorem mid_first (loader : Int → Int → List ColOp) (cx cz : Int) :
    Mid loader cx cz [(0, 0)]
      (loadStep loader cx cz ({}, colInit) (0, 0)) := by
  have hwfp : ColWF (colAt loader cx cz (0, 0)) :=
    colWF_applyOps colWF_init (opsAt loader cx cz (0, 0))
  have hstep : loadStep loader cx cz ({}, colInit) (0, 0)
      = ({ voxels := Function.update (fun _ _ => kEmptyBlock) (0, 0)
              (fillChunkColumn (colAt loader cx cz (0, 0))
                (fun _ => kEmptyBlock) 0).1,
           heightmap := Function.update (fun _ => 0) (0, 0)
              (fillChunkColumn (colAt loader cx cz (0, 0))
                (fun _ => kEmptyBlock) 0).2,
           equilevels := fun _ => 0 },
         ((colAt loader cx cz (0, 0)).detectEquiLevelChanges true).clear) := by
    simp only [loadStep]
    rfl
  rw [hstep]
  have hdet : ((colAt loader cx cz (0, 0)).detectEquiLevelChanges true).clear.reference_data
        = extAt loader cx cz (0, 0) ∧
      ((colAt loader cx cz (0, 0)).detectEquiLevelChanges true).clear.mismatches
        = applyDecos (colAt loader cx cz (0, 0)).decorations (fun _ => 0) := by
    simp [Column.detectEquiLevelChanges, Column.clear, extAt]
  refine ⟨?_, ?_, ?_, ?_, ?_, ?_, ?_⟩
  · simp [Column.clear]
  · simp [Column.clear]
  · simp [Column.clear]
  · exact hdet.1
  · intro y hy
    rw [hdet.2, integral_applyDecos _ _ y hwfp.decos hy, integral_zero]
    simp [colContrib, decosAt]
  · intro p hp
    simp only [List.mem_singleton] at hp
    subst hp
    simp only []
    rw [Function.update_same]
    rfl
  · intro p hp
    have hne : p ≠ (0, 0) := by
      intro h
      exact hp (by simp [h])
    simp only []
    rw [Function.update_noteq hne]

/-- The invariant after all 256 columns of `Chunk.load`. -/
theorem mid_colOrder (loader : Int → Int → List ColOp) (cx cz : Int) :
    Mid loader cx cz colOrder
      (colOrder.foldl (loadStep loader cx cz) ({}, colInit)) := by
  have hnodup : colOrder.Nodup := colOrder_nodup
  rw [colOrder_head] at hnodup
  have htail_nodup : colOrder.tail.Nodup := (List.nodup_cons.mp hnodup).2
  have hhead_notin : (0, 0) ∉ colOrder.tail := (List.nodup_cons.mp hnodup).1
  have hne00 : ∀ p ∈ colOrder.tail, p ≠ ((0, 0) : Nat × Nat) := by
    intro p hp h
    exact hhead_notin (h ▸ hp)
  have hsum : ∀ p ∈ colOrder.tail, p.1 + p.2 ≠ 0 := by
    intro p hp h
    have h1 : p.1 = 0 ∧ p.2 = 0 := by omega
    exact hne00 p hp (Prod.ext h1.1 h1.2)
  have hres := mid_fold loader cx cz colOrder.tail [(0, 0)]
    (loadStep loader cx cz ({}, colInit) (0, 0)) hsum
    (by
      intro p hp hmem
      simp only [List.mem_singleton] at hmem
      exact hne00 p hp hmem)
    htail_nodup (mid_first loader cx cz)
  have hl : ([((0 : Nat), (0 : Nat))] ++ colOrder.tail) = colOrder := by
    rw [colOrder_head]
    simp
  rw [hl] at hres
  have hfold : colOrder.foldl (loadStep loader cx cz) ({}, colInit)
      = colOrder.tail.foldl (loadStep loader cx cz)
          (loadStep loader cx cz ({}, colInit) (0, 0)) := by
    conv_lhs => rw [colOrder_head]
    rw [List.foldl_cons]
  rw [hfold]
  exact hres

theorem map_sum_zero {α : Type} (l : List α) (f : α → Int)
    (hnn : ∀ x ∈ l, 0 ≤ f x) (hs : (l.map f).sum = 0) :
    ∀ x ∈ l, f x = 0 := by
  induction l with
  | nil => simp
  | cons a t ih =>
    simp only [List.map_cons, List.sum_cons] at hs
    have h1 : 0 ≤ f a := hnn a (by simp)
    have h2 : 0 ≤ (t.map f).sum := by
      apply List.sum_nonneg
      intro x hx
      rcases List.mem_map.mp hx with ⟨a2, ha2, rfl⟩
      exact hnn a2 (by simp [ha2])
    intro x hx
    rcases List.mem_cons.mp hx with h | h
    · subst h; omega
    · exact ih (fun x hx2 => hnn x (by simp [hx2])) (by omega) x h

theorem fillEquilevelsFn_eq_one (m : Nat → Int) (y : Nat) :
    fillEquilevelsFn m y = 1 ↔ integral m y = 0 := by
  unfold fillEquilevelsFn
  split <;> simp_all

theorem decoCount_eq_zero_iff (decos : List (Nat × Nat)) (y : Nat) :
    decoCount decos y = 0 ↔ ∀ d ∈ decos, d.2 ≠ y := by
  unfold decoCount
  rw [Int.natCast_eq_zero, List.length_eq_zero, List.filter_eq_nil_iff]
  simp

theorem colContrib_zero_parts {loader : Int → Int → List ColOp} {cx cz : Int}
    {p : Nat × Nat} {y : Nat} (h : colContrib loader cx cz p y = 0) :
    (∀ d ∈ decosAt loader cx cz p, d.2 ≠ y) ∧
      runVal (extAt loader cx cz p) y = runVal (extAt loader cx cz (0, 0)) y := by
  unfold colContrib at h
  have h1 := decoCount_nonneg (decosAt loader cx cz p) y
  by_cases hc : runVal (extAt loader cx cz p) y = runVal (extAt loader cx cz (0, 0)) y
  · rw [if_pos hc] at h
    exact ⟨(decoCount_eq_zero_iff _ _).mp (by omega), hc⟩
  · rw [if_neg hc] at h
    omega

/-- C1 (amended): the equi-level flag is sound — when it is 1 at height `y`,
all 256 columns hold the identical block at `y` — and for chunks loaded
without point decorations it is exact: the flag is 1 iff all 256 columns
hold the identical block at `y`. -/
theorem chunk_equilevels_exact (loader : Int → Int → List ColOp)
    (cx cz : Int) (y : Nat) (hy : y < kWorldHeight) :
    ((loadChunkModel loader cx cz).1.equilevels y = 1 →
      ∀ p ∈ colOrder, (loadChunkModel loader cx cz).1.voxels p y
        = (loadChunkModel loader cx cz).1.voxels (0, 0) y) ∧
    ((∀ p ∈ colOrder, decosAt loader cx cz p = []) →
      ((loadChunkModel loader cx cz).1.equilevels y = 1 ↔
        ∀ p ∈ colOrder, (loadChunkModel loader cx cz).1.voxels p y
          = (loadChunkModel loader cx cz).1.voxels (0, 0) y)) := by
  have hmid := mid_colOrder loader cx cz
  set st := colOrder.foldl (loadStep loader cx cz) ({}, colInit) with hst
  have hequ : (loadChunkModel loader cx cz).1.equilevels
      = fillEquilevelsFn st.2.mismatches := rfl
  have hvox : (loadChunkModel loader cx cz).1.voxels = st.1.voxels := rfl
  have h00 : ((0, 0) : Nat × Nat) ∈ colOrder := by
    rw [mem_colOrder]
    constructor <;> norm_num [kChunkWidth]
  have hviaP : ∀ p ∈ colOrder,
      (∀ d ∈ decosAt loader cx cz p, d.2 ≠ y) →
      st.1.voxels p y = runVal (extAt loader cx cz p) y := by
    intro p hp hnd
    rw [hmid.vox_done p hp]
    unfold voxAt
    exact fillValue_eq_runVal_ext _ (colWF_applyOps colWF_init _) 0 y hy hnd
  have sound : (loadChunkModel loader cx cz).1.equilevels y = 1 →
      ∀ p ∈ colOrder, (loadChunkModel loader cx cz).1.voxels p y
        = (loadChunkModel loader cx cz).1.voxels (0, 0) y := by
    intro hflag p hp
    rw [hequ, fillEquilevelsFn_eq_one] at hflag
    rw [hmid.mism y hy] at hflag
    have hall := map_sum_zero colOrder _
      (fun q _ => colContrib_nonneg loader cx cz q y) hflag
    have hzp := colContrib_zero_parts (hall p hp)
    have hz0 := colContrib_zero_parts (hall (0, 0) h00)
    rw [hvox, hviaP p hp hzp.1, hviaP (0, 0) h00 hz0.1, hzp.2, hz0.2]
  refine ⟨sound, ?_⟩
  intro hnod
  constructor
  · exact sound
  · intro hall
    rw [hequ, fillEquilevelsFn_eq_one, hmid.mism y hy]
    apply List.sum_eq_zero
    intro x hx
    rcases List.mem_map.mp hx with ⟨p, hp, rfl⟩
    have hndp : ∀ d ∈ decosAt loader cx cz p, d.2 ≠ y := by
      rw [hnod p hp]
      simp
    have hnd0 : ∀ d ∈ decosAt loader cx cz (0, 0), d.2 ≠ y := by
      rw [hnod (0, 0) h00]
      simp
    have hvp := hviaP p hp hndp
    have hv0 := hviaP (0, 0) h00 hnd0
    have heq := hall p hp
    rw [hvox] at heq
    rw [hvp, hv0] at heq
    unfold colContrib
    rw [if_pos heq, (decoCount_eq_zero_iff _ _).mpr hndp]
    ring

/-- A terrain callback writing block 2 everywhere as one full-height run. -/
def constLoader : Int → Int → List ColOp := fun _ _ => [ColOp.push 2 256]

/-- The same terrain, except that column (0,1) additionally records a point
decoration that overwrites height 5 with the block the run already placed
there. -/
def redundantDecoLoader : Int → Int → List ColOp := fun x z =>
  if x = 0 ∧ z = 1 then [ColOp.push 2 256, ColOp.overwrite 2 5]
  else [ColOp.push 2 256]

set_option maxRecDepth 100000 in
/-- C1 as frozen is false: after loading with `redundantDecoLoader`, all 256
columns hold the identical block at height 5, yet the computed equi-level
flag at 5 is 0 — a redundant decoration makes the counter conservative. -/
theorem claim_c1_counterexample :
    (loadChunkModel redundantDecoLoader 0 0).1.equilevels 5 = 0 ∧
      ∀ p ∈ colOrder, (loadChunkModel redundantDecoLoader 0 0).1.voxels p 5
        = (loadChunkModel redundantDecoLoader 0 0).1.voxels (0, 0) 5 := by
  constructor
  · decide
  · decide

set_option maxRecDepth 100000 in
/-- Witness for C1's amended theorem on a concrete uniform terrain. -/
theorem chunk_equilevels_exact_witness :
    (5 < kWorldHeight ∧ (loadChunkModel constLoader 0 0).1.equilevels 5 = 1) ∧
      (∀ p ∈ colOrder, (loadChunkModel constLoader 0 0).1.voxels p 5
        = (loadChunkModel constLoader 0 0).1.voxels (0, 0) 5) :=
  ⟨⟨by decide, by decide⟩,
    (chunk_equilevels_exact constLoader 0 0 5 (by decide)).1 (by decide)⟩

/-! ## RingIndex (Circle)

The `Circle` radius is always `k` or `k + 0.5` in the engine (the chunk
index uses `(kChunkRadius | 0) + 0.5 = 12.5`); it is carried exactly as
`radius2x`, twice the radius, so `Math.floor(radius)` is `radius2x / 2` and
the float test `distance > radius*radius` is `4*distance > radius2x^2`. -/

/-- A Circle element carries its own chunk coordinate (CircleElement). -/
class CElem (T : Type) where
  cx : T → Int
  cz : T → Int

structure Circle (T : Type) where
  center_x : Int := 0
  center_z : Int := 0
  points : List (Int × Int)
  floorR : Nat
  deltas : Nat → Nat
  shift : Nat
  elements : Nat → Option T

def shiftForGo (target : Nat) : Nat → Nat → Nat
  | 0, s => s
  | fuel + 1, s => if 2 ^ s < target then shiftForGo target fuel (s + 1) else s

/-- The constructor's loop `while ((1 << shift) < 2*floor+1) shift++`, with
fuel (`target` steps always suffice since `2^s ≥ s+1`). -/
def shiftFor (target : Nat) : Nat := shiftForGo target target 0

/-- The candidate offsets of the constructor's double loop (i outer, j
inner, both from -floor to floor), in generation order. -/
def circleOffsets (floorR : Nat) : List (Int × Int) :=
  (List.range (2 * floorR + 1)).flatMap
    (fun a => (List.range (2 * floorR + 1)).map
      (fun b : Nat => ((a : Int) - (floorR : Int), (b : Int) - (floorR : Int))))

/-- Squared distance of an offset. -/
def distSq (p : Int × Int) : Int := p.1 * p.1 + p.2 * p.2

/-- The in-radius offsets sorted by ascending squared distance.  The source
sorts with the (stable, ES2019) `Array.prototype.sort` under the comparator
`a.distance - b.distance`; `List.insertionSort` computes the same stable
ascending order. -/
def circlePoints (radius2x : Nat) : List (Int × Int) :=
  List.insertionSort (fun p q => distSq p ≤ distSq q)
    ((circleOffsets (radius2x / 2)).filter
      (fun p => decide (4 * distSq p ≤ ((radius2x : Int)) ^ 2)))

/-- `deltas[ai] = max(deltas[ai], aj)` over all in-radius points. -/
def circleDeltas (pts : List (Int × Int)) (ax : Nat) : Nat :=
  pts.foldl (fun acc p => if p.1.natAbs = ax then max acc p.2.natAbs else acc) 0

def circleInit (T : Type) (radius2x : Nat) : Circle T :=
  let floorR := radius2x / 2
  let pts := circlePoints radius2x
  { center_x := 0, center_z := 0, points := pts, floorR := floorR,
    deltas := circleDeltas pts, shift := shiftFor (2 * floorR + 1),
    elements := fun _ => none }

/-- The toroidal slot of `(cx, cz)`: `((cz & mask) << shift) | (cx & mask)`
with `mask = 2^shift - 1`; `&` of a two's-complement integer with the mask
is `emod` by `2^shift`, and the `or` of the disjoint parts is addition. -/
def Circle.idx {T : Type} (c : Circle T) (cx cz : Int) : Nat :=
  (cz.emod (2 ^ c.shift)).toNat * 2 ^ c.shift + (cx.emod (2 ^ c.shift)).toNat

/-- Circle.get from engine.ts: a slot hit counts only when the stored
element's own coordinates match the query exactly. -/
def Circle.get {T : Type} [CElem T] (c : Circle T) (cx cz : Int) : Option T :=
  match c.elements (c.idx cx cz) with
  | none => none
  | some v => if CElem.cx v = cx ∧ CElem.cz v = cz then some v else none

/-- Circle.set from engine.ts (its assertion that the slot is empty is a
hypothesis wherever reachability matters). -/
def Circle.set {T : Type} (c : Circle T) (cx cz : Int) (v : T) : Circle T :=
  { c with elements := Function.update c.elements (c.idx cx cz) (some v) }

/-- The envelope test of Circle.center: `az <= this.deltas[ax]`, where the
out-of-bounds read `deltas[ax]` for `ax > floor` compares as false. -/
def Circle.envOk {T : Type} (c : Circle T) (ncx ncz cx cz : Int) : Bool :=
  let ax := (cx - ncx).natAbs
  let az := (cz - ncz).natAbs
  decide (ax ≤ c.floorR) && decide (az ≤ c.deltas ax)

/-- Circle.center from engine.ts: walk the points around the old center and
clear every occupied slot whose coordinate falls outside the envelope of
the new center, then store the new center.  (`dispose()` is called on each
evicted element; its effects on other state are modelled at their owners.) -/
def Circle.center {T : Type} (c : Circle T) (ncx ncz : Int) : Circle T :=
  let elements :=
    c.points.foldl
      (fun els p =>
        let cx := p.1 + c.center_x
        let cz := p.2 + c.center_z
        if c.envOk ncx ncz cx cz then els
        else
          match els (c.idx cx cz) with
          | none => els
          | some _ => Function.update els (c.idx cx cz) none)
      c.elements
  { c with center_x := ncx, center_z := ncz, elements := elements }

/-- In-place mutation of the element stored at `(cx, cz)` (the TypeScript
code mutates the object returned by `get`). -/
def Circle.update {T : Type} [CElem T] (c : Circle T) (cx cz : Int)
    (f : T → T) : Circle T :=
  match c.get cx cz with
  | none => c
  | some v =>
    { c with elements := Function.update c.elements (c.idx cx cz) (some (f v)) }

/-- The states a Circle can reach: constructed, re-centered, and extended by
`set` at an in-envelope coordinate of an element carrying that coordinate
(how every call site uses it), with `set`'s empty-slot assertion. -/
inductive CircleReach (T : Type) [CElem T] (radius2x : Nat) : Circle T → Prop where
  | init : CircleReach T radius2x (circleInit T radius2x)
  | center (c : Circle T) (ncx ncz : Int) :
      CircleReach T radius2x c → CircleReach T radius2x (c.center ncx ncz)
  | set (c : Circle T) (cx cz : Int) (v : T) :
      CircleReach T radius2x c →
      c.envOk c.center_x c.center_z cx cz = true →
      c.elements (c.idx cx cz) = none →
      CElem.cx v = cx → CElem.cz v = cz →
      CircleReach T radius2x (c.set cx cz v)

theorem mem_circleOffsets (f : Nat) (p : Int × Int) :
    p ∈ circleOffsets f ↔ p.1.natAbs ≤ f ∧ p.2.natAbs ≤ f := by
  obtain ⟨x, z⟩ := p
  unfold circleOffsets
  constructor
  · intro hmem
    rcases List.mem_flatMap.mp hmem with ⟨a, ha, hin⟩
    rcases List.mem_map.mp hin with ⟨b, hbr, heq⟩
    have ha' : a < 2 * f + 1 := List.mem_range.mp ha
    have hb' : b < 2 * f + 1 := List.mem_range.mp hbr
    rw [Prod.mk.injEq] at heq
    obtain ⟨h1, h2⟩ := heq
    constructor
    · show x.natAbs ≤ f
      omega
    · show z.natAbs ≤ f
      omega
  · rintro ⟨h1, h2⟩
    simp only [] at h1 h2
    apply List.mem_flatMap.mpr
    refine ⟨(x + f).toNat, List.mem_range.mpr (by omega), ?_⟩
    apply List.mem_map.mpr
    refine ⟨(z + f).toNat, List.mem_range.mpr (by omega), ?_⟩
    rw [Prod.mk.injEq]
    constructor <;> omega

theorem mem_circlePoints (radius2x : Nat) (p : Int × Int) :
    p ∈ circlePoints radius2x ↔
      p.1.natAbs ≤ radius2x / 2 ∧ p.2.natAbs ≤ radius2x / 2 ∧
        4 * distSq p ≤ ((radius2x : Int)) ^ 2 := by
  unfold circlePoints
  rw [(List.perm_insertionSort _ _).mem_iff, List.mem_filter,
    mem_circleOffsets]
  simp [and_assoc, decide_eq_true_iff]

/-- Reading below the running maximum of the deltas fold: either the query
is below the initial accumulator, or some point witnesses it. -/
theorem le_circleDeltas_aux (pts : List (Int × Int)) :
    ∀ (acc ax az : Nat),
      az ≤ pts.foldl
        (fun acc p => if p.1.natAbs = ax then max acc p.2.natAbs else acc) acc →
      az ≤ acc ∨ ∃ p ∈ pts, p.1.natAbs = ax ∧ az ≤ p.2.natAbs := by
  induction pts with
  | nil => intro acc ax az h; exact Or.inl h
  | cons p t ih =>
    intro acc ax az h
    simp only [List.foldl_cons] at h
    rcases ih _ ax az h with h1 | h1
    · by_cases hp : p.1.natAbs = ax
      · rw [if_pos hp] at h1
        by_cases h2 : az ≤ acc
        · exact Or.inl h2
        · have h3 : az ≤ p.2.natAbs := by omega
          exact Or.inr ⟨p, by simp, hp, h3⟩
      · rw [if_neg hp] at h1
        exact Or.inl h1
    · rcases h1 with ⟨q, hq, hqa, hqz⟩
      exact Or.inr ⟨q, by simp [hq], hqa, hqz⟩

/-- The squared distance of an offset in terms of absolute components. -/
theorem distSq_natAbs (p : Int × Int) :
    distSq p = ((p.1.natAbs * p.1.natAbs + p.2.natAbs * p.2.natAbs : Nat) : Int) := by
  unfold distSq
  have h1 : ((p.1.natAbs * p.1.natAbs : Nat) : Int) = p.1 * p.1 :=
    Int.natAbs_mul_self
  have h2 : ((p.2.natAbs * p.2.natAbs : Nat) : Int) = p.2 * p.2 :=
    Int.natAbs_mul_self
  push_cast at h1 h2 ⊢
  omega

/-- The disc test of `circlePoints`, stated over natural numbers. -/
theorem circlePoints_disc_nat (radius2x : Nat) (p : Int × Int) :
    (4 * distSq p ≤ ((radius2x : Int)) ^ 2) ↔
      4 * (p.1.natAbs * p.1.natAbs + p.2.natAbs * p.2.natAbs)
        ≤ radius2x * radius2x := by
  rw [distSq_natAbs]
  have hc : ((radius2x : Int)) ^ 2 = ((radius2x * radius2x : Nat) : Int) := by
    push_cast
    ring
  rw [hc]
  constructor
  · intro h
    exact_mod_cast h
  · intro h
    exact_mod_cast h

/-- Every coordinate passing the deltas envelope test lies (as an offset)
among the circle's points: the envelope is exactly the in-radius disc. -/
theorem envOk_mem_points (radius2x : Nat) {T : Type} (c : Circle T)
    (hpts : c.points = circlePoints radius2x)
    (hfl : c.floorR = radius2x / 2)
    (hdl : c.deltas = circleDeltas (circlePoints radius2x))
    (ncx ncz cx cz : Int) (h : c.envOk ncx ncz cx cz = true) :
    (cx - ncx, cz - ncz) ∈ c.points := by
  unfold Circle.envOk at h
  rw [Bool.and_eq_true, decide_eq_true_iff, decide_eq_true_iff] at h
  obtain ⟨hax, haz⟩ := h
  rw [hfl] at hax
  rw [hdl] at haz
  rw [hpts, mem_circlePoints]
  have hfst : ((cx - ncx, cz - ncz) : Int × Int).1 = cx - ncx := rfl
  have hsnd : ((cx - ncx, cz - ncz) : Int × Int).2 = cz - ncz := rfl
  rw [hfst, hsnd, circlePoints_disc_nat]
  rw [hfst, hsnd]
  rcases le_circleDeltas_aux (circlePoints radius2x) 0
      (cx - ncx).natAbs (cz - ncz).natAbs haz with h0 | hw
  · -- az = 0: the offset (ax, 0) is within the disc since ax ≤ floor
    have hz : (cz - ncz).natAbs = 0 := by omega
    refine ⟨hax, by omega, ?_⟩
    rw [hz]
    have h2f : 2 * (radius2x / 2) ≤ radius2x := by omega
    have hsq : (2 * (radius2x / 2)) * (2 * (radius2x / 2))
        ≤ radius2x * radius2x := Nat.mul_le_mul h2f h2f
    have haxsq : (cx - ncx).natAbs * (cx - ncx).natAbs
        ≤ (radius2x / 2) * (radius2x / 2) := Nat.mul_le_mul hax hax
    calc 4 * ((cx - ncx).natAbs * (cx - ncx).natAbs + 0 * 0)
        ≤ 4 * ((radius2x / 2) * (radius2x / 2)) := by omega
      _ = (2 * (radius2x / 2)) * (2 * (radius2x / 2)) := by ring
      _ ≤ radius2x * radius2x := hsq
  · -- a witness point dominates the offset componentwise
    rcases hw with ⟨q, hq, hqa, hqz⟩
    have hqmem := (mem_circlePoints radius2x q).mp hq
    rw [circlePoints_disc_nat] at hqmem
    have hmono : (cx - ncx).natAbs * (cx - ncx).natAbs
          + (cz - ncz).natAbs * (cz - ncz).natAbs
        ≤ q.1.natAbs * q.1.natAbs + q.2.natAbs * q.2.natAbs := by
      have h1 : (cx - ncx).natAbs * (cx - ncx).natAbs
          = q.1.natAbs * q.1.natAbs := by rw [hqa]
      have h2 : (cz - ncz).natAbs * (cz - ncz).natAbs
          ≤ q.2.natAbs * q.2.natAbs := Nat.mul_le_mul hqz hqz
      omega
    exact ⟨hax, by omega, by omega⟩

theorem evict_fold_keep {T : Type} (c : Circle T) (ncx ncz : Int) :
    ∀ (pts : List (Int × Int)) (els : Nat → Option T) (s : Nat),
      (∀ p ∈ pts, c.idx (p.1 + c.center_x) (p.2 + c.center_z) = s →
        c.envOk ncx ncz (p.1 + c.center_x) (p.2 + c.center_z) = true) →
      (pts.foldl
        (fun els p =>
          let cx := p.1 + c.center_x
          let cz := p.2 + c.center_z
          if c.envOk ncx ncz cx cz then els
          else
            match els (c.idx cx cz) with
            | none => els
            | some _ => Function.update els (c.idx cx cz) none)
        els) s = els s := by
  intro pts
  induction pts with
  | nil => intro els s _; rfl
  | cons p t ih =>
    intro els s hkeep
    simp only [List.foldl_cons]
    by_cases henv : c.envOk ncx ncz (p.1 + c.center_x) (p.2 + c.center_z) = true
    · rw [if_pos henv]
      exact ih els s (fun q hq => hkeep q (by simp [hq]))
    · rw [if_neg henv]
      have hne : c.idx (p.1 + c.center_x) (p.2 + c.center_z) ≠ s := by
        intro h
        exact henv (hkeep p (by simp) h)
      cases hcur : els (c.idx (p.1 + c.center_x) (p.2 + c.center_z)) with
      | none =>
        exact ih els s (fun q hq => hkeep q (by simp [hq]))
      | some v =>
        rw [ih _ s (fun q hq => hkeep q (by simp [hq]))]
        exact Function.update_noteq (fun h => hne h.symm) _ _

theorem evict_fold_none_pres {T : Type} (c : Circle T) (ncx ncz : Int) :
    ∀ (pts : List (Int × Int)) (els : Nat → Option T) (s : Nat),
      els s = none →
      (pts.foldl
        (fun els p =>
          let cx := p.1 + c.center_x
          let cz := p.2 + c.center_z
          if c.envOk ncx ncz cx cz then els
          else
            match els (c.idx cx cz) with
            | none => els
            | some _ => Function.update els (c.idx cx cz) none)
        els) s = none := by
  intro pts
  induction pts with
  | nil => intro els s h; exact h
  | cons p t ih =>
    intro els s h
    simp only [List.foldl_cons]
    by_cases henv : c.envOk ncx ncz (p.1 + c.center_x) (p.2 + c.center_z) = true
    · rw [if_pos henv]
      exact ih els s h
    · rw [if_neg henv]
      cases hcur : els (c.idx (p.1 + c.center_x) (p.2 + c.center_z)) with
      | none => exact ih els s h
      | some v =>
        apply ih
        show Function.update els
          (c.idx (p.1 + c.center_x) (p.2 + c.center_z)) none s = none
        by_cases hs : s = c.idx (p.1 + c.center_x) (p.2 + c.center_z)
        · subst hs
          exact Function.update_same _ _ _
        · rw [Function.update_noteq hs]
          exact h

theorem evict_fold_none {T : Type} (c : Circle T) (ncx ncz : Int) :
    ∀ (pts : List (Int × Int)) (els : Nat → Option T) (s : Nat),
      (∃ p ∈ pts, c.idx (p.1 + c.center_x) (p.2 + c.center_z) = s ∧
        c.envOk ncx ncz (p.1 + c.center_x) (p.2 + c.center_z) = false) →
      (pts.foldl
        (fun els p =>
          let cx := p.1 + c.center_x
          let cz := p.2 + c.center_z
          if c.envOk ncx ncz cx cz then els
          else
            match els (c.idx cx cz) with
            | none => els
            | some _ => Function.update els (c.idx cx cz) none)
        els) s = none := by
  intro pts
  induction pts with
  | nil =>
    rintro els s ⟨p, hp, _⟩
    cases hp
  | cons p t ih =>
    rintro els s ⟨q, hq, hqi, hqe⟩
    simp only [List.foldl_cons]
    rcases List.mem_cons.mp hq with heq | hmem
    · subst heq
      rw [if_neg (by rw [hqe]; simp)]
      cases hcur : els (c.idx (q.1 + c.center_x) (q.2 + c.center_z)) with
      | none =>
        apply evict_fold_none_pres
        rw [hqi] at hcur
        exact hcur
      | some v =>
        apply evict_fold_none_pres
        show Function.update els
          (c.idx (q.1 + c.center_x) (q.2 + c.center_z)) none s = none
        rw [← hqi]
        exact Function.update_same _ _ _
    · by_cases henv : c.envOk ncx ncz (p.1 + c.center_x) (p.2 + c.center_z) = true
      · rw [if_pos henv]
        exact ih els s ⟨q, hmem, hqi, hqe⟩
      · rw [if_neg henv]
        cases hcur : els (c.idx (p.1 + c.center_x) (p.2 + c.center_z)) with
        | none => exact ih els s ⟨q, hmem, hqi, hqe⟩
        | some v => exact ih _ s ⟨q, hmem, hqi, hqe⟩

/-- The structural fields and the element invariant every reachable Circle
satisfies: constructor-derived points/floor/deltas, and every stored element
sits in its own coordinate's slot with its coordinate inside the envelope of
the current center. -/
structure CircleGood {T : Type} [CElem T] (radius2x : Nat) (c : Circle T) :
    Prop where
  pts : c.points = circlePoints radius2x
  flr : c.floorR = radius2x / 2
  dlt : c.deltas = circleDeltas (circlePoints radius2x)
  elem : ∀ s v, c.elements s = some v →
    s = c.idx (CElem.cx v) (CElem.cz v) ∧
      c.envOk c.center_x c.center_z (CElem.cx v) (CElem.cz v) = true

theorem circle_reach_good {T : Type} [CElem T] {radius2x : Nat}
    {c : Circle T} (h : CircleReach T radius2x c) : CircleGood radius2x c := by
  induction h with
  | init =>
    refine ⟨rfl, rfl, rfl, ?_⟩
    intro s v hv
    simp [circleInit] at hv
  | center c0 ncx ncz _ ih =>
    refine ⟨ih.pts, ih.flr, ih.dlt, ?_⟩
    intro s v hv
    by_cases hex : ∃ p ∈ c0.points,
        c0.idx (p.1 + c0.center_x) (p.2 + c0.center_z) = s ∧
          c0.envOk ncx ncz (p.1 + c0.center_x) (p.2 + c0.center_z) = false
    · have := evict_fold_none c0 ncx ncz c0.points c0.elements s hex
      unfold Circle.center at hv
      simp only [] at hv
      rw [this] at hv
      cases hv
    · push_neg at hex
      have hkeep : ∀ p ∈ c0.points,
          c0.idx (p.1 + c0.center_x) (p.2 + c0.center_z) = s →
            c0.envOk ncx ncz (p.1 + c0.center_x) (p.2 + c0.center_z) = true := by
        intro p hp hi
        have := hex p hp hi
        cases henv : c0.envOk ncx ncz (p.1 + c0.center_x) (p.2 + c0.center_z)
        · exact absurd henv this
        · rfl
      have hold : c0.elements s = some v := by
        have := evict_fold_keep c0 ncx ncz c0.points c0.elements s hkeep
        unfold Circle.center at hv
        simp only [] at hv
        rw [this] at hv
        exact hv
      have hinv := ih.elem s v hold
      have hoff : ((CElem.cx v : Int) - c0.center_x,
          (CElem.cz v : Int) - c0.center_z) ∈ c0.points :=
        envOk_mem_points radius2x c0 ih.pts ih.flr ih.dlt _ _ _ _ hinv.2
      have habs : ((CElem.cx v : Int) - c0.center_x) + c0.center_x = CElem.cx v ∧
          ((CElem.cz v : Int) - c0.center_z) + c0.center_z = CElem.cz v := by
        omega
      have henvnew : c0.envOk ncx ncz (CElem.cx v) (CElem.cz v) = true := by
        have := hkeep _ hoff
        simp only [habs.1, habs.2] at this
        exact this (hinv.1).symm
      constructor
      · exact hinv.1
      · unfold Circle.center Circle.envOk
        simp only []
        unfold Circle.envOk at henvnew
        exact henvnew
  | set c0 cx cz v _ henv hempty hcx hcz ih =>
    refine ⟨ih.pts, ih.flr, ih.dlt, ?_⟩
    intro s w hw
    unfold Circle.set at hw
    simp only [] at hw
    by_cases hs : s = c0.idx cx cz
    · subst hs
      rw [Function.update_same] at hw
      cases hw
      rw [hcx, hcz]
      exact ⟨rfl, henv⟩
    · rw [Function.update_noteq hs] at hw
      exact ih.elem s w hw

/-- C8: in every reachable RingIndex state, `get` returns null at every
coordinate outside the envelope of the last-centered position, and any
non-null result's own stored coordinates match the query exactly. -/
theorem ringindex_get_sound {T : Type} [CElem T] (radius2x : Nat)
    (c : Circle T) (h : CircleReach T radius2x c) :
    (∀ cx cz, c.envOk c.center_x c.center_z cx cz = false →
      c.get cx cz = none) ∧
    (∀ cx cz v, c.get cx cz = some v →
      CElem.cx v = cx ∧ CElem.cz v = cz) := by
  have hg := circle_reach_good h
  constructor
  · intro cx cz henv
    unfold Circle.get
    cases hc : c.elements (c.idx cx cz) with
    | none => rfl
    | some v =>
      have hv := hg.elem _ _ hc
      by_cases hco : CElem.cx v = cx ∧ CElem.cz v = cz
      · rw [hco.1, hco.2] at hv
        rw [hv.2] at henv
        cases henv
      · simp [hco]
  · intro cx cz v hv
    unfold Circle.get at hv
    cases hc : c.elements (c.idx cx cz) with
    | none => rw [hc] at hv; cases hv
    | some w =>
      rw [hc] at hv
      have hv' : (if CElem.cx w = cx ∧ CElem.cz w = cz then some w else none)
          = some v := hv
      by_cases hco : CElem.cx w = cx ∧ CElem.cz w = cz
      · rw [if_pos hco] at hv'
        cases hv'
        exact hco
      · rw [if_neg hco] at hv'
        cases hv'

/-- A bare coordinate-carrying element for exercising the RingIndex. -/
structure PtElem where
  cx : Int
  cz : Int

instance : CElem PtElem := ⟨PtElem.cx, PtElem.cz⟩

/-- Witness for C8: a radius-2.5 RingIndex holding one element; looking up
(2,2) — outside the envelope, distance 8 > 6.25 — yields null. -/
theorem ringindex_get_sound_witness :
    ((circleInit PtElem 5).set 1 0 ⟨1, 0⟩).envOk 0 0 2 2 = false ∧
      ((circleInit PtElem 5).set 1 0 ⟨1, 0⟩).get 2 2 = none :=
  ⟨by decide,
    (ringindex_get_sound 5 _
      (CircleReach.set _ 1 0 ⟨1, 0⟩ CircleReach.init (by decide) rfl rfl rfl)).1
      2 2 (by decide)⟩

/-! ## Chunk -/

structure Chunk where
  cx : Int
  cz : Int
  dirty : Bool := false
  ready : Bool := false
  neighbors : Nat := 0
  solid : Option Nat := none
  water : Option Nat := none
  voxels : Nat × Nat → Nat → Nat := fun _ _ => kEmptyBlock
  heightmap : Nat × Nat → Nat := fun _ => 0
  equilevels : Nat → Nat := fun _ => 0

instance : CElem Chunk := ⟨Chunk.cx, Chunk.cz⟩

def Chunk.checkReady (c : Chunk) : Bool := c.neighbors == 4

/-- Chunk.dropMeshes: `dispose()` the mesh handles (external), null them,
mark dirty. -/
def Chunk.dropMeshes (c : Chunk) : Chunk :=
  { c with solid := none, water := none, dirty := true }

def Chunk.notifyNeighborLoaded (c : Chunk) : Chunk :=
  let c1 := { c with neighbors := c.neighbors + 1 }
  { c1 with ready := c1.checkReady }

def Chunk.notifyNeighborDisposed (c : Chunk) : Chunk :=
  let c1 := { c with neighbors := c.neighbors - 1 }
  let c2 := { c1 with ready := c1.checkReady }
  if c.ready = true ∧ c2.ready = false then c2.dropMeshes else c2

def Chunk.hasMesh (c : Chunk) : Bool := c.solid.isSome || c.water.isSome

def Chunk.needsRemesh (c : Chunk) : Bool := c.dirty && c.ready

/-- Chunk.getBlock from engine.ts: mask to in-chunk coordinates. -/
def Chunk.getBlock (c : Chunk) (x : Int) (y : Nat) (z : Int) : Nat :=
  c.voxels ((x.emod 16).toNat, (z.emod 16).toNat) y

/-- The chunk-local part of Chunk.setBlock: write the voxel, mark dirty,
update the cached column height, and clear the equi-level flag at `y`.
(The early return when the stored block equals the written one, and the
neighbor dirty propagation through `world.chunks`, live in
`World.setBlock`.) -/
def Chunk.setBlockSelf (c : Chunk) (xm zm y block : Nat) : Chunk :=
  let col := Function.update (c.voxels (xm, zm)) y block
  let vox := Function.update c.voxels (xm, zm) col
  { c with
    voxels := vox,
    dirty := true,
    heightmap := Function.update c.heightmap (xm, zm)
      (updateHmVal col (c.heightmap (xm, zm)) y 1 block),
    equilevels := Function.update c.equilevels y 0 }

/-- Chunk.remeshChunk: requires `dirty`; `remeshTerrain` stitches the padded
buffer and asks the external mesher for the meshes, whose (opaque) handles
replace the stored ones; then the dirty flag clears. -/
def Chunk.remeshChunk (c : Chunk) (ms mw : Option Nat) : Chunk :=
  { c with solid := ms, water := mw, dirty := false }

/-- The chunk state right after `Chunk.load` registered with the `n0`
lateral neighbors present at load time. -/
def mkLoadedChunk (cx cz : Int) (n0 : Nat) (vox : Nat × Nat → Nat → Nat)
    (hm : Nat × Nat → Nat) (eqs : Nat → Nat) : Chunk :=
  { cx := cx, cz := cz, dirty := true, ready := n0 == 4, neighbors := n0,
    solid := none, water := none, voxels := vox, heightmap := hm,
    equilevels := eqs }

/-- The per-chunk events of the neighbor-readiness state machine, with each
method's assertion as a guard. -/
inductive ChunkReach : Chunk → Prop where
  | load (cx cz : Int) (n0 : Nat) (vox : Nat × Nat → Nat → Nat)
      (hm : Nat × Nat → Nat) (eqs : Nat → Nat) : n0 ≤ 4 →
      ChunkReach (mkLoadedChunk cx cz n0 vox hm eqs)
  | nbLoaded (c : Chunk) : ChunkReach c → c.neighbors < 4 →
      ChunkReach c.notifyNeighborLoaded
  | nbDisposed (c : Chunk) : ChunkReach c → 0 < c.neighbors →
      ChunkReach c.notifyNeighborDisposed
  | edit (c : Chunk) (xm zm y b : Nat) : ChunkReach c →
      ChunkReach (c.setBlockSelf xm zm y b)
  | remesh (c : Chunk) (ms mw : Option Nat) : ChunkReach c → c.dirty = true →
      ChunkReach (c.remeshChunk ms mw)

/-- C3: in every reachable chunk state the ready flag holds exactly when the
neighbor-completion count is 4, and a neighbor disposal taken while ready
leaves the chunk not ready with both meshes released and the dirty flag
set. -/
theorem chunk_ready_iff_four (c : Chunk) (h : ChunkReach c) :
    (c.ready = true ↔ c.neighbors = 4) ∧
    (c.ready = true →
      c.notifyNeighborDisposed.ready = false ∧
      c.notifyNeighborDisposed.solid = none ∧
      c.notifyNeighborDisposed.water = none ∧
      c.notifyNeighborDisposed.dirty = true) := by
  have main : c.ready = true ↔ c.neighbors = 4 := by
    induction h with
    | load cx cz n0 vox hm eqs hn =>
      simp [mkLoadedChunk]
    | nbLoaded c0 _ hlt ih =>
      simp [Chunk.notifyNeighborLoaded, Chunk.checkReady]
    | nbDisposed c0 _ hpos ih =>
      simp only [Chunk.notifyNeighborDisposed]
      split_ifs with hcond
      · simp [Chunk.dropMeshes, Chunk.checkReady]
      · simp [Chunk.checkReady]
    | edit c0 xm zm y b _ ih =>
      simpa [Chunk.setBlockSelf] using ih
    | remesh c0 ms mw _ hd ih =>
      simpa [Chunk.remeshChunk] using ih
  refine ⟨main, ?_⟩
  intro hr
  have hn4 : c.neighbors = 4 := main.mp hr
  have hnot : ({ c with neighbors := c.neighbors - 1 } : Chunk).checkReady
      = false := by
    simp [Chunk.checkReady]
    omega
  simp only [Chunk.notifyNeighborDisposed]
  rw [hnot]
  rw [if_pos ⟨hr, rfl⟩]
  simp [Chunk.dropMeshes]

/-- A concrete chunk loaded with all 4 lateral neighbors present. -/
def chunkW : Chunk :=
  mkLoadedChunk 0 0 4 (fun _ _ => 0) (fun _ => 0) (fun _ => 0)

/-- Witness for C3: `chunkW` is ready, and disposing one neighbor drops both
meshes and marks it dirty. -/
theorem chunk_ready_iff_four_witness :
    (chunkW.ready = true ∧ chunkW.neighbors = 4) ∧
    (chunkW.notifyNeighborDisposed.ready = false ∧
      chunkW.notifyNeighborDisposed.solid = none ∧
      chunkW.notifyNeighborDisposed.water = none ∧
      chunkW.notifyNeighborDisposed.dirty = true) :=
  ⟨⟨rfl, rfl⟩,
    (chunk_ready_iff_four chunkW
      (ChunkReach.load 0 0 4 (fun _ _ => 0) (fun _ => 0) (fun _ => 0)
        (by decide))).2 rfl⟩

/-! ## World -/

/-- Twice the chunk-index radius `(kChunkRadius | 0) + 0.5 = 12.5`. -/
def kWorldRadius2x : Nat := 2 * kChunkRadius + 1

/-- The World state the claims touch: the chunk RingIndex, the stored
bedrock block, the external mesher (as the opaque handles it would return
per chunk), and a counter of `frontier.remeshFrontier()` invocations
standing in for the Frontier recomputation. -/
structure World where
  chunks : Circle Chunk
  bedrock : Nat := kEmptyBlock
  mesherS : Int → Int → Option Nat := fun _ _ => none
  mesherW : Int → Int → Option Nat := fun _ _ => none
  frontierRemeshes : Nat := 0

def worldInit : World := { chunks := circleInit Chunk kWorldRadius2x }

/-- World.getBlock from engine.ts: bedrock below 0, empty at or above the
world height, the distinguished unknown block when the containing chunk is
absent, else the chunk's voxel (`x >> 4` is `fdiv`, `x & 15` is `emod`). -/
def World.getBlock (w : World) (x y z : Int) : Nat :=
  if y < 0 then w.bedrock
  else if (kWorldHeight : Int) ≤ y then kEmptyBlock
  else
    match w.chunks.get (x.fdiv 16) (z.fdiv 16) with
    | none => kUnknownBlock
    | some c => c.getBlock x y.toNat z

def World.markNeighborDirty (w : World) (cx cz : Int) : World :=
  { w with chunks := w.chunks.update cx cz (fun c => { c with dirty := true }) }

/-- The four if-statements at the end of Chunk.setBlock: mark the lateral
neighbor dirty for each world-edge coordinate of the written column. -/
def markEdgeNeighbors (w : World) (cx cz : Int) (xm zm : Nat) : World :=
  let w2 := if xm = 0 then w.markNeighborDirty (cx - 1) cz else w
  let w3 := if xm = kChunkMask then w2.markNeighborDirty (cx + 1) cz else w2
  let w4 := if zm = 0 then w3.markNeighborDirty cx (cz - 1) else w3
  if zm = kChunkMask then w4.markNeighborDirty cx (cz + 1) else w4

/-- World.setBlock plus the body of Chunk.setBlock: no-op for out-of-range
heights, absent chunks, and writes of the already-stored block; otherwise
the chunk-local update (`Chunk.setBlockSelf`) followed by the neighbor
dirty-marking for edge columns. -/
def World.setBlock (w : World) (x y z : Int) (block : Nat) : World :=
  if 0 ≤ y ∧ y < (kWorldHeight : Int) then
    let cx := x.fdiv 16
    let cz := z.fdiv 16
    match w.chunks.get cx cz with
    | none => w
    | some ch =>
      let xm := (x.emod 16).toNat
      let zm := (z.emod 16).toNat
      let yn := y.toNat
      if ch.voxels (xm, zm) yn = block then w
      else
        markEdgeNeighbors
          { w with
            chunks := w.chunks.update cx cz
              (fun c => c.setBlockSelf xm zm yn block) }
          cx cz xm zm
  else w

/-! ### Lookup through in-place updates -/

theorem get_elements_eq {T : Type} [CElem T] (c : Circle T) (cx cz : Int)
    (v : T) (h : c.get cx cz = some v) :
    c.elements (c.idx cx cz) = some v ∧ CElem.cx v = cx ∧ CElem.cz v = cz := by
  unfold Circle.get at h
  cases hc : c.elements (c.idx cx cz) with
  | none => rw [hc] at h; cases h
  | some w =>
    rw [hc] at h
    have h' : (if CElem.cx w = cx ∧ CElem.cz w = cz then some w else none)
        = some v := h
    by_cases hco : CElem.cx w = cx ∧ CElem.cz w = cz
    · rw [if_pos hco] at h'
      injection h' with hwv
      subst hwv
      exact ⟨rfl, hco⟩
    · rw [if_neg hco] at h'
      cases h'

theorem get_update_self {T : Type} [CElem T] (c : Circle T) (cx cz : Int)
    (f : T → T) (hf : ∀ v, CElem.cx (f v) = CElem.cx v ∧
      CElem.cz (f v) = CElem.cz v)
    (v : T) (hv : c.get cx cz = some v) :
    (c.update cx cz f).get cx cz = some (f v) := by
  obtain ⟨hel, hcx, hcz⟩ := get_elements_eq c cx cz v hv
  unfold Circle.update
  rw [hv]
  show (match Function.update c.elements (c.idx cx cz) (some (f v))
        (c.idx cx cz) with
      | none => none
      | some w =>
        if CElem.cx w = cx ∧ CElem.cz w = cz then some w else none)
    = some (f v)
  rw [Function.update_same]
  show (if CElem.cx (f v) = cx ∧ CElem.cz (f v) = cz then some (f v) else none)
    = some (f v)
  rw [if_pos ⟨by rw [(hf v).1, hcx], by rw [(hf v).2, hcz]⟩]

theorem get_update_other {T : Type} [CElem T] (c : Circle T) (cx cz : Int)
    (f : T → T) (hf : ∀ v, CElem.cx (f v) = CElem.cx v ∧
      CElem.cz (f v) = CElem.cz v)
    (cx' cz' : Int) (hne : ¬ (cx' = cx ∧ cz' = cz)) :
    (c.update cx cz f).get cx' cz' = c.get cx' cz' := by
  unfold Circle.update
  cases hv : c.get cx cz with
  | none => rfl
  | some v =>
    obtain ⟨hel, hcx, hcz⟩ := get_elements_eq c cx cz v hv
    have hnev : ¬ (CElem.cx (f v) = cx' ∧ CElem.cz (f v) = cz') := by
      rw [(hf v).1, (hf v).2, hcx, hcz]
      intro hco
      exact hne ⟨hco.1.symm, hco.2.symm⟩
    have hnev2 : ¬ (CElem.cx v = cx' ∧ CElem.cz v = cz') := by
      rw [hcx, hcz]
      intro hco
      exact hne ⟨hco.1.symm, hco.2.symm⟩
    by_cases hidx : (c.idx cx' cz') = (c.idx cx cz)
    · show (match Function.update c.elements (c.idx cx cz) (some (f v))
            (c.idx cx' cz') with
          | none => none
          | some w =>
            if CElem.cx w = cx' ∧ CElem.cz w = cz' then some w else none)
        = c.get cx' cz'
      rw [hidx, Function.update_same]
      show (if CElem.cx (f v) = cx' ∧ CElem.cz (f v) = cz' then some (f v)
          else none) = c.get cx' cz'
      rw [if_neg hnev]
      unfold Circle.get
      rw [hidx, hel]
      show none = (if CElem.cx v = cx' ∧ CElem.cz v = cz' then some v
          else none)
      rw [if_neg hnev2]
    · show (match Function.update c.elements (c.idx cx cz) (some (f v))
            (c.idx cx' cz') with
          | none => none
          | some w =>
            if CElem.cx w = cx' ∧ CElem.cz w = cz' then some w else none)
        = c.get cx' cz'
      rw [Function.update_noteq hidx]
      rfl

theorem get_update_presence {T : Type} [CElem T] (c : Circle T)
    (cx cz : Int) (f : T → T) (hf : ∀ v, CElem.cx (f v) = CElem.cx v ∧
      CElem.cz (f v) = CElem.cz v) (cx' cz' : Int) :
    ((c.update cx cz f).get cx' cz').isSome = (c.get cx' cz').isSome := by
  by_cases heq : cx' = cx ∧ cz' = cz
  · obtain ⟨h1, h2⟩ := heq
    subst h1
    subst h2
    cases hv : c.get cx' cz' with
    | none =>
      unfold Circle.update
      rw [hv]
      show (c.get cx' cz').isSome = (none : Option T).isSome
      rw [hv]
    | some v =>
      rw [get_update_self c cx' cz' f hf v hv]
      rfl
  · rw [get_update_other c cx cz f hf cx' cz' heq]

/-! ### C6 and C10: getBlock / setBlock boundary behaviour -/

/-- C6: getBlock returns the stored bedrock below 0, the empty block at or
above the world height, and the distinguished unknown block at in-range
heights over an absent chunk; setBlock leaves the world unchanged for
out-of-range heights and for absent chunks. -/
theorem world_block_boundaries (w : World) (x y z : Int) (b : Nat) :
    (y < 0 → w.getBlock x y z = w.bedrock) ∧
    ((kWorldHeight : Int) ≤ y → w.getBlock x y z = kEmptyBlock) ∧
    (0 ≤ y → y < (kWorldHeight : Int) →
      w.chunks.get (x.fdiv 16) (z.fdiv 16) = none →
      w.getBlock x y z = kUnknownBlock) ∧
    (¬ (0 ≤ y ∧ y < (kWorldHeight : Int)) → w.setBlock x y z b = w) ∧
    (w.chunks.get (x.fdiv 16) (z.fdiv 16) = none → w.setBlock x y z b = w) := by
  refine ⟨?_, ?_, ?_, ?_, ?_⟩
  · intro h
    unfold World.getBlock
    rw [if_pos h]
  · intro h
    unfold World.getBlock
    rw [if_neg (by omega), if_pos h]
  · intro h1 h2 h3
    unfold World.getBlock
    rw [if_neg (by omega), if_neg (by omega), h3]
  · intro h
    unfold World.setBlock
    rw [if_neg h]
  · intro h
    unfold World.setBlock
    by_cases hy : 0 ≤ y ∧ y < (kWorldHeight : Int)
    · rw [if_pos hy]
      simp only [h]
    · rw [if_neg hy]

/-- Witness for C6: the freshly-built world at height -1. -/
theorem world_block_boundaries_witness :
    ((-1 : Int) < 0) ∧ worldInit.getBlock 0 (-1) 0 = worldInit.bedrock :=
  ⟨by decide, (world_block_boundaries worldInit 0 (-1) 0 0).1 (by decide)⟩

/-- C10: writing the block already stored at an in-range position of a
present chunk leaves the whole world state unchanged: the voxel volume,
the chunk's dirty flag, its heightmap, its equi-level array, and every
neighbor chunk's dirty flag. -/
theorem setBlock_same_value_noop (w : World) (x y z : Int) (b : Nat)
    (hy : 0 ≤ y ∧ y < (kWorldHeight : Int)) (ch : Chunk)
    (hch : w.chunks.get (x.fdiv 16) (z.fdiv 16) = some ch)
    (hold : ch.voxels ((x.emod 16).toNat, (z.emod 16).toNat) y.toNat = b) :
    w.setBlock x y z b = w := by
  unfold World.setBlock
  rw [if_pos hy]
  simp only [hch]
  rw [if_pos hold]

/-- A chunk at the origin whose voxels all hold block 7. -/
def chunkC : Chunk :=
  { cx := 0, cz := 0, dirty := false, ready := true, neighbors := 4,
    voxels := fun _ _ => 7 }

/-- A world holding just `chunkC`. -/
def wOne : World :=
  { chunks := (circleInit Chunk kWorldRadius2x).set 0 0 chunkC }

set_option maxRecDepth 100000 in
/-- Witness for C10 on a concrete one-chunk world. -/
theorem setBlock_same_value_noop_witness :
    ((0 : Int) ≤ 0 ∧ (0 : Int) < (kWorldHeight : Int)) ∧
      wOne.setBlock 0 0 0 7 = wOne :=
  ⟨⟨le_refl 0, by decide⟩,
    setBlock_same_value_noop wOne 0 0 0 7 ⟨le_refl 0, by decide⟩ chunkC rfl rfl⟩

/-! ### C5: the round trip and the neighbor dirty flags -/

/-- The dirty flag of the chunk stored at `(cx, cz)`, when one is present. -/
def dirtyAt (w : World) (cx cz : Int) : Prop :=
  ∀ c, w.chunks.get cx cz = some c → c.dirty = true

theorem coords_setBlockSelf (xm zm y b : Nat) : ∀ v : Chunk,
    CElem.cx (v.setBlockSelf xm zm y b) = CElem.cx v ∧
      CElem.cz (v.setBlockSelf xm zm y b) = CElem.cz v :=
  fun _ => ⟨rfl, rfl⟩

theorem coords_markDirty : ∀ v : Chunk,
    CElem.cx ({ v with dirty := true }) = CElem.cx v ∧
      CElem.cz ({ v with dirty := true }) = CElem.cz v :=
  fun _ => ⟨rfl, rfl⟩

theorem dirtyAt_markNeighborDirty (w : World) (cx cz : Int) :
    dirtyAt (w.markNeighborDirty cx cz) cx cz := by
  intro c hc
  unfold World.markNeighborDirty at hc
  simp only [] at hc
  cases hv : w.chunks.get cx cz with
  | none =>
    unfold Circle.update at hc
    rw [hv] at hc
    rw [hv] at hc
    cases hc
  | some q =>
    rw [get_update_self w.chunks cx cz _ coords_markDirty q hv] at hc
    injection hc with hcq
    subst hcq
    rfl

theorem dirtyAt_markNeighborDirty_other (w : World) (a b cx cz : Int)
    (hne : ¬ (cx = a ∧ cz = b)) (h : dirtyAt w cx cz) :
    dirtyAt (w.markNeighborDirty a b) cx cz := by
  intro c hc
  unfold World.markNeighborDirty at hc
  simp only [] at hc
  rw [get_update_other w.chunks a b _ coords_markDirty cx cz hne] at hc
  exact h c hc

theorem condMark_get (w : World) (P : Prop) [Decidable P] (a b cx cz : Int)
    (hne : ¬ (cx = a ∧ cz = b)) :
    (if P then w.markNeighborDirty a b else w).chunks.get cx cz
      = w.chunks.get cx cz := by
  split_ifs with h
  · exact get_update_other w.chunks a b _ coords_markDirty cx cz hne
  · rfl

theorem dirtyAt_condMark (w : World) (P : Prop) [Decidable P] (a b cx cz : Int)
    (hne : ¬ (cx = a ∧ cz = b)) (h : dirtyAt w cx cz) :
    dirtyAt (if P then w.markNeighborDirty a b else w) cx cz := by
  split_ifs with hp
  · exact dirtyAt_markNeighborDirty_other w a b cx cz hne h
  · exact h

theorem markEdgeNeighbors_get_center (w : World) (cx cz : Int) (xm zm : Nat) :
    (markEdgeNeighbors w cx cz xm zm).chunks.get cx cz
      = w.chunks.get cx cz := by
  simp only [markEdgeNeighbors]
  rw [condMark_get _ (zm = kChunkMask) cx (cz + 1) cx cz (by omega)]
  rw [condMark_get _ (zm = 0) cx (cz - 1) cx cz (by omega)]
  rw [condMark_get _ (xm = kChunkMask) (cx + 1) cz cx cz (by omega)]
  rw [condMark_get _ (xm = 0) (cx - 1) cz cx cz (by omega)]

/-- C5 (amended): for an in-range height and a present containing chunk,
writing a block then reading the same position returns the written block;
and when the write actually changes the stored block, a write on an edge
column marks the corresponding lateral neighbor chunk (when present)
dirty.  (When the written block equals the stored one, the write returns
early and no neighbor is marked — see the counterexample.) -/
theorem world_setBlock_roundtrip (w : World) (x y z : Int) (b : Nat)
    (hy : 0 ≤ y ∧ y < (kWorldHeight : Int)) (ch : Chunk)
    (hch : w.chunks.get (x.fdiv 16) (z.fdiv 16) = some ch) :
    (w.setBlock x y z b).getBlock x y z = b ∧
    (ch.voxels ((x.emod 16).toNat, (z.emod 16).toNat) y.toNat ≠ b →
      (((x.emod 16).toNat = 0 →
          dirtyAt (w.setBlock x y z b) (x.fdiv 16 - 1) (z.fdiv 16)) ∧
        ((x.emod 16).toNat = kChunkMask →
          dirtyAt (w.setBlock x y z b) (x.fdiv 16 + 1) (z.fdiv 16)) ∧
        ((z.emod 16).toNat = 0 →
          dirtyAt (w.setBlock x y z b) (x.fdiv 16) (z.fdiv 16 - 1)) ∧
        ((z.emod 16).toNat = kChunkMask →
          dirtyAt (w.setBlock x y z b) (x.fdiv 16) (z.fdiv 16 + 1)))) := by
  by_cases hold : ch.voxels ((x.emod 16).toNat, (z.emod 16).toNat) y.toNat = b
  · have hw : w.setBlock x y z b = w := by
      unfold World.setBlock
      rw [if_pos hy]
      simp only [hch]
      rw [if_pos hold]
    refine ⟨?_, fun hne => absurd hold hne⟩
    rw [hw]
    unfold World.getBlock
    rw [if_neg (by omega), if_neg (by omega), hch]
    exact hold
  · have hsb : w.setBlock x y z b =
        markEdgeNeighbors
          { w with
            chunks := w.chunks.update (x.fdiv 16) (z.fdiv 16)
              (fun c => c.setBlockSelf (x.emod 16).toNat (z.emod 16).toNat
                y.toNat b) }
          (x.fdiv 16) (z.fdiv 16) (x.emod 16).toNat (z.emod 16).toNat := by
      unfold World.setBlock
      rw [if_pos hy]
      simp only [hch]
      rw [if_neg hold]
    have hg : (w.setBlock x y z b).chunks.get (x.fdiv 16) (z.fdiv 16)
        = some (ch.setBlockSelf (x.emod 16).toNat (z.emod 16).toNat
            y.toNat b) := by
      rw [hsb, markEdgeNeighbors_get_center]
      exact get_update_self w.chunks _ _ _ (coords_setBlockSelf _ _ _ _) ch hch
    constructor
    · unfold World.getBlock
      rw [if_neg (by omega), if_neg (by omega), hg]
      show (ch.setBlockSelf (x.emod 16).toNat (z.emod 16).toNat y.toNat b).voxels
          ((x.emod 16).toNat, (z.emod 16).toNat) y.toNat = b
      simp only [Chunk.setBlockSelf]
      rw [Function.update_same, Function.update_same]
    · intro _
      refine ⟨?_, ?_, ?_, ?_⟩
      · intro hedge
        rw [hsb]
        simp only [markEdgeNeighbors]
        refine dirtyAt_condMark _ _ _ _ _ _ (by omega) ?_
        refine dirtyAt_condMark _ _ _ _ _ _ (by omega) ?_
        refine dirtyAt_condMark _ _ _ _ _ _ (by omega) ?_
        rw [if_pos hedge]
        exact dirtyAt_markNeighborDirty _ _ _
      · intro hedge
        rw [hsb]
        simp only [markEdgeNeighbors]
        refine dirtyAt_condMark _ _ _ _ _ _ (by omega) ?_
        refine dirtyAt_condMark _ _ _ _ _ _ (by omega) ?_
        rw [if_pos hedge]
        exact dirtyAt_markNeighborDirty _ _ _
      · intro hedge
        rw [hsb]
        simp only [markEdgeNeighbors]
        refine dirtyAt_condMark _ _ _ _ _ _ (by omega) ?_
        rw [if_pos hedge]
        exact dirtyAt_markNeighborDirty _ _ _
      · intro hedge
        rw [hsb]
        simp only [markEdgeNeighbors]
        rw [if_pos hedge]
        exact dirtyAt_markNeighborDirty _ _ _

/-- A clean (not dirty) chunk at chunk coordinate (-1, 0). -/
def chunkN : Chunk := { cx := -1, cz := 0, dirty := false }

/-- A world holding `chunkC` at (0, 0) and the clean `chunkN` at (-1, 0). -/
def wTwo : World :=
  { chunks :=
      ((circleInit Chunk kWorldRadius2x).set 0 0 chunkC).set (-1) 0 chunkN }

set_option maxRecDepth 400000 in
/-- Counterexample to C5 as stated: (0, 0, 0) is an edge column (local x is
0) of the present chunk at (0, 0), the adjacent neighbor chunk at (-1, 0)
is present, and the round trip returns the written block 7 — yet the write
(of the block already stored) does not set the neighbor's dirty flag, which
stays false. -/
theorem claim_c5_counterexample :
    ((0 : Int).emod 16).toNat = 0 ∧
    wTwo.chunks.get 0 0 = some chunkC ∧
    wTwo.chunks.get (-1) 0 = some chunkN ∧
    (wTwo.setBlock 0 0 0 7).getBlock 0 0 0 = 7 ∧
    (wTwo.setBlock 0 0 0 7).chunks.get (-1) 0 = some chunkN ∧
    chunkN.dirty = false :=
  ⟨rfl, rfl, rfl, rfl, rfl, rfl⟩

set_option maxRecDepth 400000 in
/-- Witness for C5 on `wTwo`, writing a genuinely new block. -/
theorem world_setBlock_roundtrip_witness :
    ((0 : Int) ≤ 0 ∧ (0 : Int) < (kWorldHeight : Int)) ∧
      (wTwo.setBlock 0 0 0 9).getBlock 0 0 0 = 9 :=
  ⟨⟨le_refl 0, by decide⟩,
    (world_setBlock_roundtrip wTwo 0 0 0 9 ⟨le_refl 0, by decide⟩
      chunkC rfl).1⟩

/-! ### C4: neighbor registration at load time -/

/-- The four lateral offsets visited by the `neighbor` closure of
Chunk.load, in source order. -/
def latNeighborOffsets : List (Int × Int) := [(1, 0), (-1, 0), (0, 1), (0, -1)]

theorem coords_notifyLoaded : ∀ v : Chunk,
    CElem.cx v.notifyNeighborLoaded = CElem.cx v ∧
      CElem.cz v.notifyNeighborLoaded = CElem.cz v :=
  fun _ => ⟨rfl, rfl⟩

/-- One step of the `neighbor` closure of Chunk.load: a present neighbor
chunk gets `notifyNeighborLoaded` and the loading chunk's count rises; an
absent slot is skipped (`if (!chunk) return;`). -/
def loadNbStep (cx cz : Int) (acc : Circle Chunk × Nat) (p : Int × Int) :
    Circle Chunk × Nat :=
  match acc.1.get (p.1 + cx) (p.2 + cz) with
  | none => acc
  | some _ =>
    (acc.1.update (p.1 + cx) (p.2 + cz) Chunk.notifyNeighborLoaded, acc.2 + 1)

/-- Chunk.load's neighbor-registration pass followed by World.recenter
storing the constructed chunk; returns the updated world and the new
chunk. -/
def World.loadChunkInto (w : World) (loader : Int → Int → List ColOp)
    (cx cz : Int) : World × Chunk :=
  let res := loadChunkModel loader cx cz
  let fold := latNeighborOffsets.foldl (loadNbStep cx cz) (w.chunks, 0)
  let ch := mkLoadedChunk cx cz fold.2 res.1.voxels res.1.heightmap
    res.1.equilevels
  ({ w with chunks := fold.1.set cx cz ch }, ch)

/-- The number of the four lateral neighbor slots actually holding a
chunk. -/
def latCount (w : World) (cx cz : Int) : Nat :=
  (latNeighborOffsets.filter
    (fun p => (w.chunks.get (p.1 + cx) (p.2 + cz)).isSome)).length

theorem get_set_self {T : Type} [CElem T] (c : Circle T) (cx cz : Int)
    (v : T) (hx : CElem.cx v = cx) (hz : CElem.cz v = cz) :
    (c.set cx cz v).get cx cz = some v := by
  show (match Function.update c.elements (c.idx cx cz) (some v)
        (c.idx cx cz) with
      | none => none
      | some w => if CElem.cx w = cx ∧ CElem.cz w = cz then some w else none)
    = some v
  rw [Function.update_same]
  show (if CElem.cx v = cx ∧ CElem.cz v = cz then some v else none) = some v
  rw [if_pos ⟨hx, hz⟩]

theorem loadNbFold_count (ps : List (Int × Int)) :
    ∀ (c : Circle Chunk) (n : Nat) (cx cz : Int),
    (ps.map (fun p => (p.1 + cx, p.2 + cz))).Nodup →
    (ps.foldl (loadNbStep cx cz) (c, n)).2
      = n + (ps.filter
          (fun p => (c.get (p.1 + cx) (p.2 + cz)).isSome)).length := by
  induction ps with
  | nil =>
    intro c n cx cz _
    simp
  | cons p tl ih =>
    intro c n cx cz hnd
    rw [List.map_cons, List.nodup_cons] at hnd
    obtain ⟨hnotin, hndtl⟩ := hnd
    simp only [List.foldl_cons, List.filter_cons]
    cases hp : c.get (p.1 + cx) (p.2 + cz) with
    | none =>
      have hstep : loadNbStep cx cz (c, n) p = (c, n) := by
        simp only [loadNbStep, hp]
      rw [hstep, ih c n cx cz hndtl]
      simp [hp]
    | some v =>
      have hstep : loadNbStep cx cz (c, n) p
          = (c.update (p.1 + cx) (p.2 + cz) Chunk.notifyNeighborLoaded,
             n + 1) := by
        simp only [loadNbStep, hp]
      rw [hstep, ih _ (n + 1) cx cz hndtl]
      have hfil : tl.filter
            (fun q => (((c.update (p.1 + cx) (p.2 + cz)
                Chunk.notifyNeighborLoaded).get (q.1 + cx) (q.2 + cz)).isSome))
          = tl.filter (fun q => ((c.get (q.1 + cx) (q.2 + cz)).isSome)) := by
        apply List.filter_congr
        intro q hq
        have hne : ¬ (q.1 + cx = p.1 + cx ∧ q.2 + cz = p.2 + cz) := by
          intro hco
          apply hnotin
          rw [List.mem_map]
          exact ⟨q, hq, by rw [Prod.mk.injEq]; exact ⟨hco.1, hco.2⟩⟩
        exact congrArg Option.isSome
          (get_update_other c (p.1 + cx) (p.2 + cz) _ coords_notifyLoaded
            (q.1 + cx) (q.2 + cz) hne)
      rw [hfil]
      simp [hp]
      omega

/-- C4 (amended): when a chunk finishes loading it registers completion
only with the lateral neighbor slots that actually hold a chunk — an
absent neighbor is skipped and does not count — so the new chunk's
neighbor count equals the number of present lateral neighbors and it
becomes ready exactly when all four are present. In particular a newly
loaded chunk with no present lateral neighbors is not ready. -/
theorem chunk_load_neighbors (w : World) (loader : Int → Int → List ColOp)
    (cx cz : Int) :
    ((w.loadChunkInto loader cx cz).2.neighbors = latCount w cx cz) ∧
    ((w.loadChunkInto loader cx cz).2.ready = true ↔ latCount w cx cz = 4) ∧
    ((w.loadChunkInto loader cx cz).1.chunks.get cx cz
      = some (w.loadChunkInto loader cx cz).2) := by
  have hnd : (latNeighborOffsets.map (fun p => (p.1 + cx, p.2 + cz))).Nodup := by
    simp only [latNeighborOffsets, List.map_cons, List.map_nil]
    refine List.nodup_cons.mpr ⟨?_, List.nodup_cons.mpr ⟨?_,
      List.nodup_cons.mpr ⟨?_, List.nodup_singleton _⟩⟩⟩ <;>
    · simp only [List.mem_cons, List.mem_singleton, List.not_mem_nil,
        Prod.mk.injEq, not_or, or_false]
      omega
  have hcount := loadNbFold_count latNeighborOffsets w.chunks 0 cx cz hnd
  refine ⟨?_, ?_, ?_⟩
  · show (latNeighborOffsets.foldl (loadNbStep cx cz) (w.chunks, 0)).2
      = latCount w cx cz
    rw [hcount]
    simp [latCount]
  · show ((latNeighborOffsets.foldl (loadNbStep cx cz) (w.chunks, 0)).2 == 4)
        = true ↔ latCount w cx cz = 4
    rw [hcount]
    simp [latCount]
  · exact get_set_self _ cx cz _ rfl rfl

/-- A terrain callback that pushes nothing. -/
def trivLoader : Int → Int → List ColOp := fun _ _ => []

set_option maxRecDepth 400000 in
/-- Counterexample to C4 as stated: loading a chunk at (0, 0) into the
fresh world — all four lateral neighbor slots empty — yields a chunk with
neighbor count 0 whose ready flag is false: absent neighbors are not
counted as complete. -/
theorem claim_c4_counterexample :
    worldInit.chunks.get 1 0 = none ∧
    worldInit.chunks.get (-1) 0 = none ∧
    worldInit.chunks.get 0 1 = none ∧
    worldInit.chunks.get 0 (-1) = none ∧
    (worldInit.loadChunkInto trivLoader 0 0).2.neighbors = 0 ∧
    (worldInit.loadChunkInto trivLoader 0 0).2.ready = false :=
  ⟨rfl, rfl, rfl, rfl, rfl, rfl⟩

set_option maxRecDepth 400000 in
/-- Witness for C4 on the fresh world. -/
theorem chunk_load_neighbors_witness :
    (worldInit.loadChunkInto trivLoader 0 0).2.neighbors
      = latCount worldInit 0 0 :=
  (chunk_load_neighbors worldInit trivLoader 0 0).1

/-! ### C9: LOD multi-meshes -/

def kMultiMeshBits : Nat := 2
def kMultiMeshSide : Nat := 4
def kMultiMeshArea : Nat := 16
def kLODSingleMask : Nat := 15

/-- The `Int32Array` words start at -1; as the unsigned 32-bit pattern that
is `2^32 - 1`. -/
def kAllMask : Nat := 4294967295

/-- LODMultiMesh from engine.ts: the shared mesh handles (opaque), the
per-sub-tile meshed and enabled flags, and the two 32-bit visibility mask
words (each sub-tile owns one 4-bit nibble). -/
structure LODMultiMesh where
  solid : Option Nat := none
  water : Option Nat := none
  meshed : Nat → Bool := fun _ => false
  enabled : Nat → Bool := fun _ => false
  mask0 : Nat := kAllMask
  mask1 : Nat := kAllMask

/-- LODMultiMesh.setMask: `mask_index = index >> 3`,
`mask_shift = (index & 7) * 4`; clear the nibble and or the new value in.
(`mesh.show` only forwards the words to the external handle.) -/
def LODMultiMesh.setMask (m : LODMultiMesh) (index mask : Nat) : LODMultiMesh :=
  let sh := (index % 8) * 4
  if index / 8 = 0 then
    { m with mask0 := (m.mask0 &&& (kAllMask ^^^ (kLODSingleMask <<< sh)))
        ||| (mask <<< sh) }
  else
    { m with mask1 := (m.mask1 &&& (kAllMask ^^^ (kLODSingleMask <<< sh)))
        ||| (mask <<< sh) }

/-- LODMultiMesh.disable: early-return if the sub-tile is not enabled; hide
its nibble and clear its enabled flag; if any other sub-tile is still
enabled stop; otherwise clear every meshed flag, dispose and null both mesh
handles, and reset both mask words to -1. -/
def LODMultiMesh.disable (m : LODMultiMesh) (index : Nat) : LODMultiMesh :=
  if m.enabled index = false then m
  else
    let m1 := m.setMask index kLODSingleMask
    let m2 := { m1 with enabled := Function.update m1.enabled index false }
    if (List.range kMultiMeshArea).any m2.enabled then m2
    else
      { m2 with
        meshed := fun _ => false
        solid := none
        water := none
        mask0 := kAllMask
        mask1 := kAllMask }

/-- FrontierChunk, with its owning multi-mesh inlined. -/
structure FrontierChunk where
  cx : Int
  cz : Int
  level : Nat
  mesh : LODMultiMesh

/-- LODMultiMesh.index: `((cz & mask) << kMultiMeshBits) | (cx & mask)` with
`mask = kMultiMeshSide - 1`. -/
def lodIndex (c : FrontierChunk) : Nat :=
  (c.cz.emod 4).toNat * 4 + (c.cx.emod 4).toNat

/-- FrontierChunk.dispose: `mesh.disable(mesh.index(this))`; returns the
multi-mesh it mutates. -/
def FrontierChunk.dispose (c : FrontierChunk) : LODMultiMesh :=
  c.mesh.disable (lodIndex c)

theorem setMask_enabled (m : LODMultiMesh) (i k : Nat) :
    (m.setMask i k).enabled = m.enabled := by
  unfold LODMultiMesh.setMask
  split_ifs <;> rfl

theorem setMask_solid (m : LODMultiMesh) (i k : Nat) :
    (m.setMask i k).solid = m.solid := by
  unfold LODMultiMesh.setMask
  split_ifs <;> rfl

theorem setMask_water (m : LODMultiMesh) (i k : Nat) :
    (m.setMask i k).water = m.water := by
  unfold LODMultiMesh.setMask
  split_ifs <;> rfl

theorem setMask_meshed (m : LODMultiMesh) (i k : Nat) :
    (m.setMask i k).meshed = m.meshed := by
  unfold LODMultiMesh.setMask
  split_ifs <;> rfl

theorem lod_disable_cases (m : LODMultiMesh) (i : Nat) :
    (m.enabled i = true ∧
      (∀ j < kMultiMeshArea, j ≠ i → m.enabled j = false) →
      (m.disable i).solid = none ∧ (m.disable i).water = none ∧
      (∀ j, (m.disable i).meshed j = false) ∧
      (m.disable i).mask0 = kAllMask ∧ (m.disable i).mask1 = kAllMask) ∧
    ((∃ j, j < kMultiMeshArea ∧ j ≠ i ∧ m.enabled j = true) →
      (m.disable i).solid = m.solid ∧ (m.disable i).water = m.water ∧
      (m.disable i).meshed = m.meshed) := by
  by_cases hbt : m.enabled i = true
  · have hne : ¬ (m.enabled i = false) := by
      rw [hbt]
      decide
    constructor
    · intro h
      obtain ⟨_, hoth⟩ := h
      have hany : (List.range kMultiMeshArea).any
          (Function.update m.enabled i false) = false := by
        rw [List.any_eq_false]
        intro j hj
        rw [Function.update_apply]
        split_ifs with hji
        · decide
        · rw [hoth j (List.mem_range.mp hj) hji]
          decide
      have hdis : m.disable i = LODMultiMesh.mk none none (fun _ => false)
          (Function.update m.enabled i false) kAllMask kAllMask := by
        unfold LODMultiMesh.disable
        rw [if_neg hne]
        simp only [setMask_enabled]
        rw [hany]
        rw [if_neg (by decide : ¬ (false = true))]
      rw [hdis]
      exact ⟨rfl, rfl, fun j => rfl, rfl, rfl⟩
    · intro h
      obtain ⟨j, hj, hji, henj⟩ := h
      have hany : (List.range kMultiMeshArea).any
          (Function.update m.enabled i false) = true := by
        rw [List.any_eq_true]
        refine ⟨j, List.mem_range.mpr hj, ?_⟩
        rw [Function.update_apply, if_neg hji]
        exact henj
      have hdis : m.disable i = LODMultiMesh.mk
          (m.setMask i kLODSingleMask).solid
          (m.setMask i kLODSingleMask).water
          (m.setMask i kLODSingleMask).meshed
          (Function.update m.enabled i false)
          (m.setMask i kLODSingleMask).mask0
          (m.setMask i kLODSingleMask).mask1 := by
        unfold LODMultiMesh.disable
        rw [if_neg hne]
        simp only [setMask_enabled]
        rw [hany]
        rw [if_pos rfl]
      rw [hdis]
      exact ⟨setMask_solid m i _, setMask_water m i _, setMask_meshed m i _⟩
  · have hb : m.enabled i = false := by
      revert hbt
      cases m.enabled i <;> simp
    have hid : m.disable i = m := by
      unfold LODMultiMesh.disable
      rw [if_pos hb]
    constructor
    · intro h
      rw [h.1] at hbt
      exact absurd rfl hbt
    · intro _
      rw [hid]
      exact ⟨rfl, rfl, rfl⟩

/-- C9: a FrontierChunk's dispose physically releases its multi-mesh's
solid and water handles only when no sub-tile remains enabled: disposing
the chunk feeding the only enabled sub-tile releases both handles, clears
every per-sub-tile meshed flag, and resets both visibility mask words to
the fully-absent -1, while disposing it when any other sub-tile is still
enabled leaves the handles and the meshed flags untouched. -/
theorem frontier_dispose_release (fc : FrontierChunk) :
    (fc.mesh.enabled (lodIndex fc) = true ∧
      (∀ j < kMultiMeshArea, j ≠ lodIndex fc → fc.mesh.enabled j = false) →
      fc.dispose.solid = none ∧ fc.dispose.water = none ∧
      (∀ j, fc.dispose.meshed j = false) ∧
      fc.dispose.mask0 = kAllMask ∧ fc.dispose.mask1 = kAllMask) ∧
    ((∃ j, j < kMultiMeshArea ∧ j ≠ lodIndex fc ∧
        fc.mesh.enabled j = true) →
      fc.dispose.solid = fc.mesh.solid ∧
      fc.dispose.water = fc.mesh.water ∧
      fc.dispose.meshed = fc.mesh.meshed) :=
  lod_disable_cases fc.mesh (lodIndex fc)

/-- A multi-mesh with live handles whose only enabled sub-tile is 3. -/
def mmW : LODMultiMesh :=
  { solid := some 1, water := some 2, meshed := fun j => j == 3,
    enabled := fun j => j == 3, mask0 := 5, mask1 := kAllMask }

/-- The frontier chunk feeding sub-tile 3 of `mmW`. -/
def fcW : FrontierChunk := { cx := 3, cz := 0, level := 0, mesh := mmW }

/-- Witness for C9: disposing `fcW` releases both handles, clears the
meshed flags and resets the mask words. -/
theorem frontier_dispose_release_witness :
    fcW.mesh.enabled (lodIndex fcW) = true ∧
      (fcW.dispose.solid = none ∧ fcW.dispose.water = none ∧
        (∀ j, fcW.dispose.meshed j = false) ∧
        fcW.dispose.mask0 = kAllMask ∧ fcW.dispose.mask1 = kAllMask) :=
  ⟨rfl, (frontier_dispose_release fcW).1 ⟨rfl, by decide⟩⟩

/-! ### C2: the remesh pass -/

/-- Circle.each from engine.ts: visit the points offset by the current
center, in list order, stopping the first time the callback returns
true. -/
def eachBreak {σ : Type} (ps : List (Int × Int)) (cx cz : Int)
    (fn : σ → Int → Int → σ × Bool) (s : σ) : σ :=
  match ps with
  | [] => s
  | p :: tl =>
    let r := fn s (p.1 + cx) (p.2 + cz)
    if r.2 then r.1 else eachBreak tl cx cz fn r.1

/-- The captured locals of World.remesh's callback, plus a log recording
`(chunk coordinate, value of total at that visit)` for every
`chunk.remeshChunk()` call. -/
structure RemeshState where
  w : World
  meshed : Nat
  total : Nat
  log : List ((Int × Int) × Nat)

/-- The body of World.remesh's callback: bump total; break once
`total > 9` and the budget is spent; otherwise remesh the chunk at
`(cx, cz)` when present and `needsRemesh`. -/
def remeshVisit (st : RemeshState) (cx cz : Int) : RemeshState × Bool :=
  let total := st.total + 1
  if 9 < total ∧ kNumChunksToMeshPerFrame ≤ st.meshed then
    ({ st with total := total }, true)
  else
    match st.w.chunks.get cx cz with
    | none => ({ st with total := total }, false)
    | some c =>
      if c.needsRemesh = true then
        ({ w := { st.w with
              chunks := st.w.chunks.update cx cz
                (fun ch => ch.remeshChunk (st.w.mesherS cx cz)
                  (st.w.mesherW cx cz)) },
            meshed := st.meshed + 1,
            total := total,
            log := st.log ++ [((cx, cz), total)] }, false)
      else ({ st with total := total }, false)

/-- World.remesh: walk the RingIndex points from the current center with
the callback above, then always run the Frontier recomputation
(`frontier.remeshFrontier()`, modelled as its invocation counter).
Returns the world and the remesh log. -/
def World.remesh (w : World) : World × List ((Int × Int) × Nat) :=
  let st := eachBreak w.chunks.points w.chunks.center_x w.chunks.center_z
    remeshVisit { w := w, meshed := 0, total := 0, log := [] }
  ({ st.w with frontierRemeshes := st.w.frontierRemeshes + 1 }, st.log)

theorem needsRemesh_remeshChunk (c : Chunk) (ms mw : Option Nat) :
    (c.remeshChunk ms mw).needsRemesh = false := by
  simp [Chunk.remeshChunk, Chunk.needsRemesh]

theorem coords_remeshChunk (ms mw : Option Nat) : ∀ v : Chunk,
    CElem.cx (v.remeshChunk ms mw) = CElem.cx v ∧
      CElem.cz (v.remeshChunk ms mw) = CElem.cz v :=
  fun _ => ⟨rfl, rfl⟩

/-- The invariant of the remesh fold, relative to the pre-call world `w0`,
the already-visited offsets `done` and the circle center. -/
structure RInv (w0 : World) (done : List (Int × Int)) (ctrx ctrz : Int)
    (st : RemeshState) : Prop where
  hlen : st.log.length = st.meshed
  hm9 : st.meshed ≤ 9
  hmt : st.meshed ≤ st.total
  hlate : (st.log.filter (fun e => decide (9 < e.2))).length = 0 ∨
    ((st.log.filter (fun e => decide (9 < e.2))).length = 1 ∧ 1 ≤ st.meshed)
  hpre : ∀ e ∈ st.log, ∃ c, w0.chunks.get e.1.1 e.1.2 = some c ∧
    c.needsRemesh = true
  hrel : ∀ a b : Int, st.w.chunks.get a b = w0.chunks.get a b ∨
    (∃ c, w0.chunks.get a b = some c ∧ c.needsRemesh = true ∧
      st.w.chunks.get a b
        = some (c.remeshChunk (w0.mesherS a b) (w0.mesherW a b)))
  hmesher : st.w.mesherS = w0.mesherS ∧ st.w.mesherW = w0.mesherW
  hfr : st.w.frontierRemeshes = w0.frontierRemeshes
  hsub : List.Sublist (st.log.map (fun e => (e.1.1 - ctrx, e.1.2 - ctrz))) done

theorem remeshFold_inv (w0 : World) (ctrx ctrz : Int) :
    ∀ (ps done : List (Int × Int)) (st : RemeshState),
      RInv w0 done ctrx ctrz st →
      RInv w0 (done ++ ps) ctrx ctrz
        (eachBreak ps ctrx ctrz remeshVisit st) := by
  intro ps
  induction ps with
  | nil =>
    intro done st h
    simpa [eachBreak] using h
  | cons p tl ih =>
    intro done st h
    have hk : kNumChunksToMeshPerFrame = 1 := rfl
    have hdone : done ++ p :: tl = (done ++ [p]) ++ tl := by
      rw [List.append_assoc, List.singleton_append]
    rw [hdone]
    show RInv w0 ((done ++ [p]) ++ tl) ctrx ctrz
      (eachBreak (p :: tl) ctrx ctrz remeshVisit st)
    have hsub1 : List.Sublist
        (st.log.map (fun e => (e.1.1 - ctrx, e.1.2 - ctrz)))
        (done ++ [p]) := h.hsub.trans (List.sublist_append_left done [p])
    by_cases hbr : 9 < st.total + 1 ∧ kNumChunksToMeshPerFrame ≤ st.meshed
    · have hstep : eachBreak (p :: tl) ctrx ctrz remeshVisit st
          = { st with total := st.total + 1 } := by
        show (if (remeshVisit st (p.1 + ctrx) (p.2 + ctrz)).2 = true
            then (remeshVisit st (p.1 + ctrx) (p.2 + ctrz)).1
            else eachBreak tl ctrx ctrz remeshVisit
              (remeshVisit st (p.1 + ctrx) (p.2 + ctrz)).1) = _
        have hv : remeshVisit st (p.1 + ctrx) (p.2 + ctrz)
            = ({ st with total := st.total + 1 }, true) := by
          unfold remeshVisit
          rw [if_pos hbr]
        rw [hv]
        rfl
      rw [hstep]
      exact ⟨h.hlen, h.hm9, Nat.le_succ_of_le h.hmt, h.hlate, h.hpre,
        h.hrel, h.hmesher, h.hfr,
        h.hsub.trans (List.sublist_append_left done (p :: tl)) |>.trans
          (by rw [hdone])⟩
    · have hnb : ¬ ((9 < st.total + 1 ∧
          kNumChunksToMeshPerFrame ≤ st.meshed)) := hbr
      cases hg : st.w.chunks.get (p.1 + ctrx) (p.2 + ctrz) with
      | none =>
        have hv : remeshVisit st (p.1 + ctrx) (p.2 + ctrz)
            = ({ st with total := st.total + 1 }, false) := by
          unfold remeshVisit
          rw [if_neg hnb]
          simp only [hg]
        have hstep : eachBreak (p :: tl) ctrx ctrz remeshVisit st
            = eachBreak tl ctrx ctrz remeshVisit
                { st with total := st.total + 1 } := by
          show (if (remeshVisit st (p.1 + ctrx) (p.2 + ctrz)).2 = true
              then (remeshVisit st (p.1 + ctrx) (p.2 + ctrz)).1
              else eachBreak tl ctrx ctrz remeshVisit
                (remeshVisit st (p.1 + ctrx) (p.2 + ctrz)).1) = _
          rw [hv]
          rfl
        rw [hstep]
        exact ih (done ++ [p]) _
          ⟨h.hlen, h.hm9, Nat.le_succ_of_le h.hmt, h.hlate, h.hpre,
            h.hrel, h.hmesher, h.hfr, hsub1⟩
      | some c =>
        by_cases hnr : c.needsRemesh = true
        · have hcpre : w0.chunks.get (p.1 + ctrx) (p.2 + ctrz) = some c ∧
              st.w.chunks.get (p.1 + ctrx) (p.2 + ctrz)
                = w0.chunks.get (p.1 + ctrx) (p.2 + ctrz) := by
            rcases h.hrel (p.1 + ctrx) (p.2 + ctrz) with heq | ⟨c0, hc0, _, hst⟩
            · rw [heq] at hg
              exact ⟨hg, heq⟩
            · rw [hst] at hg
              injection hg with hcc
              rw [← hcc] at hnr
              rw [needsRemesh_remeshChunk] at hnr
              cases hnr
          have hv : remeshVisit st (p.1 + ctrx) (p.2 + ctrz)
              = (RemeshState.mk
                  { st.w with
                    chunks := st.w.chunks.update (p.1 + ctrx) (p.2 + ctrz)
                      (fun ch => ch.remeshChunk
                        (st.w.mesherS (p.1 + ctrx) (p.2 + ctrz))
                        (st.w.mesherW (p.1 + ctrx) (p.2 + ctrz))) }
                  (st.meshed + 1)
                  (st.total + 1)
                  (st.log ++ [((p.1 + ctrx, p.2 + ctrz), st.total + 1)]),
                 false) := by
            unfold remeshVisit
            rw [if_neg hnb]
            simp only [hg]
            rw [if_pos hnr]
          have hstep : eachBreak (p :: tl) ctrx ctrz remeshVisit st
              = eachBreak tl ctrx ctrz remeshVisit
                  (remeshVisit st (p.1 + ctrx) (p.2 + ctrz)).1 := by
            show (if (remeshVisit st (p.1 + ctrx) (p.2 + ctrz)).2 = true
                then (remeshVisit st (p.1 + ctrx) (p.2 + ctrz)).1
                else eachBreak tl ctrx ctrz remeshVisit
                  (remeshVisit st (p.1 + ctrx) (p.2 + ctrz)).1) = _
            rw [hv]
            rfl
          rw [hstep, hv]
          have hA : (st.log ++ [((p.1 + ctrx, p.2 + ctrz),
              st.total + 1)]).length = st.meshed + 1 := by
            simp [h.hlen]
          have hB : st.meshed + 1 ≤ 9 := by
            have := h.hmt
            rw [hk] at hnb
            omega
          have hC : st.meshed + 1 ≤ st.total + 1 := by
            have := h.hmt
            omega
          have hD : ((st.log ++ [((p.1 + ctrx, p.2 + ctrz),
                st.total + 1)]).filter (fun e => decide (9 < e.2))).length = 0
              ∨ (((st.log ++ [((p.1 + ctrx, p.2 + ctrz),
                st.total + 1)]).filter (fun e => decide (9 < e.2))).length = 1
                ∧ 1 ≤ st.meshed + 1) := by
            rw [List.filter_append]
            by_cases h9 : 9 < st.total + 1
            · rw [hk] at hnb
              have hm0 : st.meshed = 0 := by omega
              have hnil : st.log = [] :=
                List.eq_nil_of_length_eq_zero (by rw [h.hlen, hm0])
              rw [hnil]
              have hfone : List.filter (fun e => decide (9 < e.2))
                  [((p.1 + ctrx, p.2 + ctrz), st.total + 1)]
                  = [((p.1 + ctrx, p.2 + ctrz), st.total + 1)] := by
                simp [h9]
              rw [hfone]
              right
              exact ⟨by simp, by omega⟩
            · have hfone : List.filter (fun e => decide (9 < e.2))
                  [((p.1 + ctrx, p.2 + ctrz), st.total + 1)] = [] := by
                simp [h9]
              rw [hfone, List.append_nil]
              rcases h.hlate with h0 | ⟨h1, hm⟩
              · left
                exact h0
              · right
                exact ⟨h1, by omega⟩
          have hE : ∀ e ∈ st.log ++ [((p.1 + ctrx, p.2 + ctrz),
              st.total + 1)], ∃ cc, w0.chunks.get e.1.1 e.1.2 = some cc ∧
              cc.needsRemesh = true := by
            intro e he
            rw [List.mem_append] at he
            rcases he with he | he
            · exact h.hpre e he
            · rw [List.mem_singleton] at he
              subst he
              exact ⟨c, hcpre.1, hnr⟩
          have hF : ∀ a b : Int,
              (st.w.chunks.update (p.1 + ctrx) (p.2 + ctrz)
                (fun ch => ch.remeshChunk
                  (st.w.mesherS (p.1 + ctrx) (p.2 + ctrz))
                  (st.w.mesherW (p.1 + ctrx) (p.2 + ctrz)))).get a b
                = w0.chunks.get a b ∨
              (∃ c0, w0.chunks.get a b = some c0 ∧ c0.needsRemesh = true ∧
                (st.w.chunks.update (p.1 + ctrx) (p.2 + ctrz)
                  (fun ch => ch.remeshChunk
                    (st.w.mesherS (p.1 + ctrx) (p.2 + ctrz))
                    (st.w.mesherW (p.1 + ctrx) (p.2 + ctrz)))).get a b
                  = some (c0.remeshChunk (w0.mesherS a b)
                      (w0.mesherW a b))) := by
            intro a b
            by_cases hab : a = p.1 + ctrx ∧ b = p.2 + ctrz
            · obtain ⟨ha, hb⟩ := hab
              subst ha
              subst hb
              right
              refine ⟨c, hcpre.1, hnr, ?_⟩
              rw [get_update_self st.w.chunks (p.1 + ctrx) (p.2 + ctrz) _
                (coords_remeshChunk _ _) c hg]
              rw [h.hmesher.1, h.hmesher.2]
            · rcases h.hrel a b with heq | ⟨c0, hc0, hc0r, hst⟩
              · left
                rw [get_update_other st.w.chunks (p.1 + ctrx) (p.2 + ctrz) _
                  (coords_remeshChunk _ _) a b hab]
                exact heq
              · right
                refine ⟨c0, hc0, hc0r, ?_⟩
                rw [get_update_other st.w.chunks (p.1 + ctrx) (p.2 + ctrz) _
                  (coords_remeshChunk _ _) a b hab]
                exact hst
          have hG : List.Sublist ((st.log ++ [((p.1 + ctrx, p.2 + ctrz),
                st.total + 1)]).map (fun e => (e.1.1 - ctrx, e.1.2 - ctrz)))
              (done ++ [p]) := by
            rw [List.map_append]
            refine List.Sublist.append h.hsub ?_
            simp only [List.map_cons, List.map_nil]
            have hp1 : p.1 + ctrx - ctrx = p.1 := by omega
            have hp2 : p.2 + ctrz - ctrz = p.2 := by omega
            rw [hp1, hp2]
          exact ih (done ++ [p]) _
            ⟨hA, hB, hC, hD, hE, hF, h.hmesher, h.hfr, hG⟩
        · have hv : remeshVisit st (p.1 + ctrx) (p.2 + ctrz)
              = ({ st with total := st.total + 1 }, false) := by
            unfold remeshVisit
            rw [if_neg hnb]
            simp only [hg]
            rw [if_neg hnr]
          have hstep : eachBreak (p :: tl) ctrx ctrz remeshVisit st
              = eachBreak tl ctrx ctrz remeshVisit
                  { st with total := st.total + 1 } := by
            show (if (remeshVisit st (p.1 + ctrx) (p.2 + ctrz)).2 = true
                then (remeshVisit st (p.1 + ctrx) (p.2 + ctrz)).1
                else eachBreak tl ctrx ctrz remeshVisit
                  (remeshVisit st (p.1 + ctrx) (p.2 + ctrz)).1) = _
            rw [hv]
            rfl
          rw [hstep]
          exact ih (done ++ [p]) _
            ⟨h.hlen, h.hm9, Nat.le_succ_of_le h.hmt, h.hlate, h.hpre,
              h.hrel, h.hmesher, h.hfr, hsub1⟩

/-- The points of a RingIndex are sorted by ascending squared distance. -/
theorem circlePoints_sorted (radius2x : Nat) :
    (circlePoints radius2x).Pairwise (fun p q => distSq p ≤ distSq q) := by
  have ht : IsTotal (Int × Int) (fun p q => distSq p ≤ distSq q) :=
    ⟨fun a b => le_total _ _⟩
  have htr : IsTrans (Int × Int) (fun p q => distSq p ≤ distSq q) :=
    ⟨fun a b c hab hbc => le_trans hab hbc⟩
  exact List.sorted_insertionSort _ _

/-- C2 (amended): one call to World.remesh visits chunks in ascending
squared-distance order from the current center and calls
Chunk.remeshChunk only on chunks that were dirty and ready (needsRemesh)
in the pre-call world; the fixed budget `kNumChunksToMeshPerFrame = 1`
applies only from the tenth visited coordinate on (at most that many
remeshes happen at visits with `total > 9`), so a single call can remesh
up to 9 chunks among the nine closest coordinates; afterwards the
Frontier is always recomputed exactly once. -/
theorem world_remesh_spec (w : World)
    (hsorted : w.chunks.points.Pairwise (fun p q => distSq p ≤ distSq q)) :
    (World.remesh w).2.length ≤ 9 ∧
    ((World.remesh w).2.filter (fun e => decide (9 < e.2))).length
      ≤ kNumChunksToMeshPerFrame ∧
    (∀ e ∈ (World.remesh w).2, ∃ c, w.chunks.get e.1.1 e.1.2 = some c ∧
      c.needsRemesh = true) ∧
    ((World.remesh w).2.map (fun e => distSq (e.1.1 - w.chunks.center_x,
      e.1.2 - w.chunks.center_z))).Pairwise (fun a b => a ≤ b) ∧
    (World.remesh w).1.frontierRemeshes = w.frontierRemeshes + 1 := by
  have h0 : RInv w [] w.chunks.center_x w.chunks.center_z
      { w := w, meshed := 0, total := 0, log := [] } := by
    refine ⟨rfl, Nat.zero_le 9, Nat.le_refl 0, Or.inl rfl, ?_, ?_,
      ⟨rfl, rfl⟩, rfl, ?_⟩
    · intro e he
      exact absurd he (List.not_mem_nil e)
    · intro a b
      left
      rfl
    · exact List.nil_sublist []
  have hfin := remeshFold_inv w w.chunks.center_x w.chunks.center_z
    w.chunks.points [] { w := w, meshed := 0, total := 0, log := [] } h0
  rw [List.nil_append] at hfin
  refine ⟨?_, ?_, ?_, ?_, ?_⟩
  · show (eachBreak w.chunks.points w.chunks.center_x w.chunks.center_z
        remeshVisit
        { w := w, meshed := 0, total := 0, log := [] }).log.length ≤ 9
    rw [hfin.hlen]
    exact hfin.hm9
  · show ((eachBreak w.chunks.points w.chunks.center_x w.chunks.center_z
        remeshVisit
        { w := w, meshed := 0, total := 0, log := [] }).log.filter
        (fun e => decide (9 < e.2))).length ≤ kNumChunksToMeshPerFrame
    rcases hfin.hlate with h1 | ⟨h1, _⟩ <;> rw [h1] <;> decide
  · exact hfin.hpre
  · have hpw := List.Pairwise.sublist hfin.hsub hsorted
    show ((eachBreak w.chunks.points w.chunks.center_x w.chunks.center_z
        remeshVisit
        { w := w, meshed := 0, total := 0, log := [] }).log.map
        (fun e => distSq (e.1.1 - w.chunks.center_x,
          e.1.2 - w.chunks.center_z))).Pairwise (fun a b => a ≤ b)
    have hco : (fun (e : (Int × Int) × Nat) =>
        distSq (e.1.1 - w.chunks.center_x, e.1.2 - w.chunks.center_z))
        = distSq ∘ (fun e => (e.1.1 - w.chunks.center_x,
          e.1.2 - w.chunks.center_z)) := rfl
    rw [hco, ← List.map_map]
    exact List.pairwise_map.mpr hpw
  · show (eachBreak w.chunks.points w.chunks.center_x w.chunks.center_z
        remeshVisit
        { w := w, meshed := 0, total := 0,
          log := [] }).w.frontierRemeshes + 1 = w.frontierRemeshes + 1
    rw [hfin.hfr]

/-- A chunk at `(cx, cz)` that is dirty and ready (needs remesh). -/
def rcChunk (cx cz : Int) : Chunk :=
  { cx := cx, cz := cz, dirty := true, ready := true, neighbors := 4 }

/-- A world whose chunks at (0, 0) and (1, 0) both need a remesh. -/
def wC2 : World :=
  { chunks := ((circleInit Chunk kWorldRadius2x).set 0 0
      (rcChunk 0 0)).set 1 0 (rcChunk 1 0) }

/-- `eachBreak` instrumented with a flag telling whether the callback
broke the loop. -/
def eachBreakF {σ : Type} (ps : List (Int × Int)) (cx cz : Int)
    (fn : σ → Int → Int → σ × Bool) (s : σ) : σ × Bool :=
  match ps with
  | [] => (s, false)
  | p :: tl =>
    let r := fn s (p.1 + cx) (p.2 + cz)
    if r.2 then (r.1, true) else eachBreakF tl cx cz fn r.1

theorem eachBreakF_fst {σ : Type} (cx cz : Int)
    (fn : σ → Int → Int → σ × Bool) :
    ∀ (ps : List (Int × Int)) (s : σ),
      eachBreak ps cx cz fn s = (eachBreakF ps cx cz fn s).1 := by
  intro ps
  induction ps with
  | nil =>
    intro s
    rfl
  | cons p tl ih =>
    intro s
    simp only [eachBreak, eachBreakF]
    split_ifs with hc
    · rfl
    · exact ih _

theorem eachBreakF_append {σ : Type} (cx cz : Int)
    (fn : σ → Int → Int → σ × Bool) :
    ∀ (l1 : List (Int × Int)) (s : σ),
      (eachBreakF l1 cx cz fn s).2 = true →
      ∀ l2, eachBreakF (l1 ++ l2) cx cz fn s = eachBreakF l1 cx cz fn s := by
  intro l1
  induction l1 with
  | nil =>
    intro s h l2
    exact absurd h (by simp [eachBreakF])
  | cons p tl ih =>
    intro s h l2
    rw [List.cons_append]
    simp only [eachBreakF] at h ⊢
    split_ifs at h ⊢ with hc
    · rfl
    · exact ih _ h l2

set_option maxRecDepth 2000000 in
/-- Counterexample to C2 as stated: with the per-frame budget equal to 1,
a single World.remesh call on `wC2` invokes Chunk.remeshChunk on two
chunks — the budget check is skipped for the first nine visited
coordinates (`total > 9`). -/
theorem claim_c2_counterexample :
    kNumChunksToMeshPerFrame = 1 ∧ (World.remesh wC2).2.length = 2 := by
  refine ⟨rfl, ?_⟩
  have htake : wC2.chunks.points.take 10
      = [(0, 0), (-1, 0), (0, -1), (0, 1), (1, 0), (-1, -1), (-1, 1),
         (1, -1), (1, 1), (-2, 0)] := by decide
  have hsplit : wC2.chunks.points
      = wC2.chunks.points.take 10 ++ wC2.chunks.points.drop 10 :=
    (List.take_append_drop 10 wC2.chunks.points).symm
  show (eachBreak wC2.chunks.points wC2.chunks.center_x wC2.chunks.center_z
      remeshVisit (RemeshState.mk wC2 0 0 [])).log.length = 2
  rw [hsplit, htake, eachBreakF_fst]
  rw [eachBreakF_append _ _ _ _ _ (by decide)]
  decide

/-- A world over a radius-0 RingIndex (single point), for exercising the
remesh theorem on a fully evaluable input. -/
def wSmallC2 : World := { chunks := circleInit Chunk 0 }

/-- Witness for C2 on `wSmallC2`. -/
theorem world_remesh_spec_witness :
    (World.remesh wSmallC2).2.length ≤ 9 ∧
      (World.remesh wSmallC2).1.frontierRemeshes
        = wSmallC2.frontierRemeshes + 1 := by
  have hp1 : wSmallC2.chunks.points = [((0 : Int), (0 : Int))] := by decide
  have hs : wSmallC2.chunks.points.Pairwise
      (fun p q => distSq p ≤ distSq q) := by
    rw [hp1]
    exact List.pairwise_singleton _ _
  exact ⟨(world_remesh_spec wSmallC2 hs).1,
    (world_remesh_spec wSmallC2 hs).2.2.2.2⟩

end Voxels
